import Mathlib

/-!
Verification of the EmoVision backend against its natural-language
specification.

The Python source is shallowly embedded: pure functions become Lean
functions, in-place mutation becomes explicit state threading, Python
`dict`s become association lists with insertion-order/overwrite
semantics, and float arithmetic is idealized as exact arithmetic
(`ℚ` for the geometric / bookkeeping code, `ℝ` for the neural paths
that use `exp`).  Fallible Python code (code that can raise) is
embedded with `Except`.
-/

namespace EmoVision

/-! ## `app/schemas/common.py`: `BoundingBox` -/

/-- Embeds `BoundingBox` (fields `x`, `y`, `width`, `height`, all floats,
idealized as `ℚ`). -/
structure BoundingBox where
  x : ℚ
  y : ℚ
  width : ℚ
  height : ℚ
  deriving DecidableEq, Repr

namespace BoundingBox

/-- `BoundingBox.x2`: right edge `x + width`. -/
def x2 (b : BoundingBox) : ℚ := b.x + b.width

/-- `BoundingBox.y2`: bottom edge `y + height`. -/
def y2 (b : BoundingBox) : ℚ := b.y + b.height

/-- `BoundingBox.center`: `(x + width / 2, y + height / 2)`. -/
def center (b : BoundingBox) : ℚ × ℚ := (b.x + b.width / 2, b.y + b.height / 2)

/-- `BoundingBox.area`: `width * height`. -/
def area (b : BoundingBox) : ℚ := b.width * b.height

/-- `BoundingBox.from_xyxy`. -/
def from_xyxy (x1 y1 px2 py2 : ℚ) : BoundingBox :=
  { x := x1, y := y1, width := px2 - x1, height := py2 - y1 }

/-- `BoundingBox.iou`: intersection over union, `0.0` when the
intersection is empty or the union area is not positive. -/
def iou (self other : BoundingBox) : ℚ :=
  let inter_x1 := max self.x other.x
  let inter_y1 := max self.y other.y
  let inter_x2 := min self.x2 other.x2
  let inter_y2 := min self.y2 other.y2
  if inter_x2 ≤ inter_x1 ∨ inter_y2 ≤ inter_y1 then 0
  else
    let inter_area := (inter_x2 - inter_x1) * (inter_y2 - inter_y1)
    let union_area := self.area + other.area - inter_area
    if union_area > 0 then inter_area / union_area else 0

end BoundingBox

/-! ## `app/modules/detector/schemas.py`: `Detection` -/

/-- Embeds `DetectionType` (`face` | `person`). -/
inductive DetectionType where
  | face
  | person
  deriving DecidableEq, Repr

/-- Embeds `Detection`: `id`, `type`, `bbox`, `confidence`,
optional `paired_id`. -/
structure Detection where
  id : ℤ
  type : DetectionType
  bbox : BoundingBox
  confidence : ℚ
  paired_id : Option ℤ := none
  deriving DecidableEq, Repr

/-! ## Python `dict` as an association list

`match_faces_to_persons` returns a `dict[int, int]`; `apply_pairing`
reads it back.  A Python dict preserves insertion order and overwrites
the value in place on key collision, which the two functions below
reproduce. -/

/-- Python `d[k] = v` on an insertion-ordered dict. -/
def dictInsert {κ ν : Type} [DecidableEq κ] (m : List (κ × ν)) (k : κ) (v : ν) :
    List (κ × ν) :=
  if m.any (fun kv => kv.1 = k) then
    m.map (fun kv => if kv.1 = k then (k, v) else kv)
  else m ++ [(k, v)]

/-- Python `d.get(k)` on an insertion-ordered dict. -/
def dictGet {κ ν : Type} [DecidableEq κ] (m : List (κ × ν)) (k : κ) : Option ν :=
  (m.find? (fun kv => kv.1 = k)).map (fun kv => kv.2)

/-- Python dict built from a sequence of key/value pairs
(`{k: v for k, v in pairs}`). -/
def dictOf {κ ν : Type} [DecidableEq κ] (pairs : List (κ × ν)) : List (κ × ν) :=
  pairs.foldl (fun m kv => dictInsert m kv.1 kv.2) []

/-! ## `app/modules/recognizer/matching.py` -/

/-- `filter_by_type`. -/
def filter_by_type (detections : List Detection) (det_type : DetectionType) :
    List Detection :=
  detections.filter (fun d => d.type = det_type)

/-- `get_detection_by_id`: first detection with the given id, else `None`. -/
def get_detection_by_id (detections : List Detection) (det_id : ℤ) :
    Option Detection :=
  detections.find? (fun d => d.id = det_id)

/-- Whether the face's center lies inside the person's box
(`person.bbox.x <= face_cx <= person.bbox.x2 and
person.bbox.y <= face_cy <= person.bbox.y2`). -/
def inPerson (face person : Detection) : Prop :=
  person.bbox.x ≤ (face.bbox.center).1 ∧ (face.bbox.center).1 ≤ person.bbox.x2 ∧
  person.bbox.y ≤ (face.bbox.center).2 ∧ (face.bbox.center).2 ≤ person.bbox.y2

instance (face person : Detection) : Decidable (inPerson face person) := by
  unfold inPerson; infer_instance

/-- One iteration of the inner `for person in persons` loop of
`match_faces_to_persons`: the accumulator is `(best_iou, best_person)`. -/
def matchScanStep (thr : ℚ) (face : Detection) (used : List ℤ)
    (acc : ℚ × Option Detection) (person : Detection) : ℚ × Option Detection :=
  if person.id ∈ used then acc
  else
    let i := face.bbox.iou person.bbox
    if inPerson face person ∧ (acc.2 = none ∨ i > acc.1) then (i, some person)
    else if ¬ inPerson face person ∧ acc.2 = none ∧ i > thr then (i, some person)
    else acc

/-- The inner loop of `match_faces_to_persons`: scan `persons` keeping the
best `(best_iou, best_person)` pair, starting from `(0.0, None)`. -/
def matchScan (thr : ℚ) (face : Detection) (persons : List Detection)
    (used : List ℤ) : ℚ × Option Detection :=
  persons.foldl (matchScanStep thr face used) (0, none)

/-- One iteration of the outer `for face in faces` loop of
`match_faces_to_persons`: thread the `(mapping, used_persons)` state. -/
def matchFoldStep (thr : ℚ) (persons : List Detection)
    (st : List (ℤ × ℤ) × List ℤ) (face : Detection) : List (ℤ × ℤ) × List ℤ :=
  match (matchScan thr face persons st.2).2 with
  | none => st
  | some best => (dictInsert st.1 face.id best.id, best.id :: st.2)

/-- `match_faces_to_persons(faces, persons, iou_threshold)`. -/
def match_faces_to_persons (faces persons : List Detection) (thr : ℚ) :
    List (ℤ × ℤ) :=
  if faces = [] ∨ persons = [] then []
  else (faces.foldl (matchFoldStep thr persons) ([], [])).1

/-- Apply `f` to the element at position `j` (in-place object mutation). -/
def updateAt (f : Detection → Detection) : List Detection → ℕ → List Detection
  | [], _ => []
  | p :: rest, 0 => f p :: rest
  | p :: rest, j + 1 => p :: updateAt f rest j

/-- `apply_pairing`'s write to the person side:
`person_lookup = {p.id: p for p in persons}` maps an id to the **last**
detection carrying it, and `person.paired_id = face.id` mutates that
object, i.e. sets `paired_id` on the last list entry with that id (a
no-op when no entry carries the id). -/
def setPairedAtLast : List Detection → ℤ → ℤ → List Detection
  | [], _, _ => []
  | p :: rest, pid, fid =>
      if rest.any (fun q => q.id = pid) then p :: setPairedAtLast rest pid fid
      else if p.id = pid then { p with paired_id := some fid } :: rest
      else p :: setPairedAtLast rest pid fid

/-- The body of `apply_pairing`'s `for face in faces` loop. -/
def applyStep (mapping : List (ℤ × ℤ)) (st : List Detection × List Detection)
    (face : Detection) : List Detection × List Detection :=
  match dictGet mapping face.id with
  | none => (st.1 ++ [face], st.2)
  | some pid =>
      (st.1 ++ [{ face with paired_id := some pid }],
       setPairedAtLast st.2 pid face.id)

/-- `apply_pairing(faces, persons, mapping)`: returns the mutated
`(faces, persons)` pair. -/
def apply_pairing (faces persons : List Detection)
    (mapping : List (ℤ × ℤ)) : List Detection × List Detection :=
  faces.foldl (applyStep mapping) ([], persons)

/-! ## `app/schemas/pipeline.py`: detector configuration -/

/-- Embeds `ModelSize` (`n` | `s` | `m` | `l` | `x`). -/
inductive ModelSize where
  | nano
  | small
  | medium
  | large
  | xlarge
  deriving DecidableEq, Repr

/-- `ModelSize.value`: the string value of the enum member. -/
def ModelSize.value : ModelSize → String
  | .nano => "n"
  | .small => "s"
  | .medium => "m"
  | .large => "l"
  | .xlarge => "x"

/-- Embeds `DetectorConfig`. -/
structure DetectorConfig where
  model_size : ModelSize := .nano
  confidence_threshold : ℚ := 1 / 2
  iou_threshold : ℚ := 45 / 100
  detect_face : Bool := true
  detect_person : Bool := true
  max_detections : ℕ := 100
  deriving DecidableEq, Repr

/-! ## `app/modules/detector/yolo_detector.py` -/

/-- `YOLODetector.load_model`'s weight-file choice: a custom path is used
when supplied and existing on disk, otherwise the pretrained file
`f"yolo11{self._config.model_size.value}.pt"`. `pathExists` abstracts
`Path(...).exists()`. -/
def yoloWeightFile (config : DetectorConfig) (model_path : Option String)
    (pathExists : String → Bool) : String :=
  match model_path with
  | some p => if pathExists p then p else "yolo11" ++ config.model_size.value ++ ".pt"
  | none => "yolo11" ++ config.model_size.value ++ ".pt"

/-- One iteration of the inner `for person in persons` loop of
`YOLODetector._pair_detections`.  The accumulator keeps the mutable
`(best_iou, best_person)` pair; the chosen person is identified by its
position in the list because the Python loop holds the object itself. -/
def pairScanStep (face : Detection) (used : List ℤ)
    (acc : ℚ × Option (ℕ × Detection)) (ip : ℕ × Detection) :
    ℚ × Option (ℕ × Detection) :=
  if ip.2.id ∈ used then acc
  else
    let i := face.bbox.iou ip.2.bbox
    if inPerson face ip.2 ∧ (acc.2 = none ∨ i > acc.1) then (i, some ip)
    else if ¬ inPerson face ip.2 ∧ acc.2 = none ∧ i > 1 / 10 then (i, some ip)
    else acc

/-- The inner loop of `YOLODetector._pair_detections`. -/
def pairScan (face : Detection) (persons : List Detection) (used : List ℤ) :
    ℚ × Option (ℕ × Detection) :=
  persons.enum.foldl (pairScanStep face used) (0, none)

/-- One iteration of the outer `for face in faces` loop of
`YOLODetector._pair_detections`: the state is the already-processed
faces, the (mutated in place) persons list and the `used_persons` set. -/
def pairFoldStep (st : List Detection × List Detection × List ℤ)
    (face : Detection) : List Detection × List Detection × List ℤ :=
  match (pairScan face st.2.1 st.2.2).2 with
  | none => (st.1 ++ [face], st.2.1, st.2.2)
  | some (j, best) =>
      (st.1 ++ [{ face with paired_id := some best.id }],
       updateAt (fun q => { q with paired_id := some face.id }) st.2.1 j,
       best.id :: st.2.2)

/-- `YOLODetector._pair_detections(faces, persons)`: mutates both lists
in place; the embedded version returns the mutated `(faces, persons)`. -/
def pair_detections (faces persons : List Detection) :
    List Detection × List Detection :=
  if faces = [] ∨ persons = [] then (faces, persons)
  else
    let st := faces.foldl pairFoldStep ([], persons, [])
    (st.1, st.2.1)

/-- One raw box of the object-detection model's output:
`(cls_id, conf, xyxy)`. -/
structure RawBox where
  cls_id : ℤ
  conf : ℚ
  x1 : ℚ
  y1 : ℚ
  x2 : ℚ
  y2 : ℚ
  deriving DecidableEq, Repr

/-- `PERSON_CLASS_ID = 0`. -/
def PERSON_CLASS_ID : ℤ := 0

/-- The person `Detection` built for a person-class box, with the next
fresh id. -/
def collectedPerson (c : ℤ) (b : RawBox) : Detection where
  id := c + 1
  type := .person
  bbox := BoundingBox.from_xyxy b.x1 b.y1 b.x2 b.y2
  confidence := b.conf
  paired_id := none

/-- The face `Detection` built for a non-person box, with the next fresh
id. -/
def collectedFace (c : ℤ) (b : RawBox) : Detection where
  id := c + 1
  type := .face
  bbox := BoundingBox.from_xyxy b.x1 b.y1 b.x2 b.y2
  confidence := b.conf
  paired_id := none

/-- One iteration of the box-collection loop of `YOLODetector.detect`:
appends to `faces` or `persons` according to the class id and the
config's `detect_face`/`detect_person` flags, drawing ids from the
shared `_next_id()` counter (which increments and then returns). -/
def collectStep (config : DetectorConfig)
    (st : List Detection × List Detection × ℤ) (box : RawBox) :
    List Detection × List Detection × ℤ :=
  if box.cls_id = PERSON_CLASS_ID then
    if config.detect_person then
      (st.1, st.2.1 ++ [collectedPerson st.2.2 box], st.2.2 + 1)
    else st
  else
    if config.detect_face then
      (st.1 ++ [collectedFace st.2.2 box], st.2.1, st.2.2 + 1)
    else st

/-- The whole collection loop of `YOLODetector.detect`, starting from
empty `faces`/`persons` and the current id counter. -/
def collectDetections (config : DetectorConfig) (boxes : List RawBox)
    (counter0 : ℤ) : List Detection × List Detection × ℤ :=
  boxes.foldl (collectStep config) ([], [], counter0)

/-- `YOLODetector.detect` after the model inference: collect faces and
persons from the raw boxes, pair them via `_pair_detections`, and return
the faces followed by the persons.  `boxes` abstracts the model's raw
output for the frame; `counter0` is the detector's id counter on entry. -/
def yoloDetect (config : DetectorConfig) (boxes : List RawBox)
    (counter0 : ℤ) : List Detection :=
  let c := collectDetections config boxes counter0
  let paired := pair_detections c.1 c.2.1
  paired.1 ++ paired.2

/-! ## Python `round` (banker's rounding) -/

/-- `round(x)` for a real (here rational) argument: round half to even. -/
def roundHalfEven (q : ℚ) : ℤ :=
  let f := ⌊q⌋
  if q - f < 1 / 2 then f
  else if q - f > 1 / 2 then f + 1
  else if f % 2 = 0 then f else f + 1

/-- `round(x, ndigits)`. -/
def pyRound (ndigits : ℕ) (q : ℚ) : ℚ :=
  (roundHalfEven (q * 10 ^ ndigits) : ℚ) / 10 ^ ndigits

/-! ## `app/modules/recognizer/schemas.py`: `EmotionResult`

The probability values are `ℚ` for the mock recognizer and `ℝ` for the
model-backed recognizers, so the value type is a parameter. -/

/-- Embeds `EmotionResult`: `detection_id`, `probabilities` (a dict from
label to probability), `dominant_emotion`, `confidence`. -/
structure EmotionResult (V : Type) where
  detection_id : ℤ
  probabilities : List (String × V)
  dominant_emotion : String
  confidence : V

/-! ## `app/modules/recognizer/mock_recognizer.py` -/

/-- Python `max(d, key=d.get)` on a dict: the first entry whose value is
maximal, as a `(key, value)` pair (the code then reads `d[dominant]`,
which for a dict is exactly that entry's value).  Raises `ValueError`
on an empty dict. -/
def pyMaxEntry (m : List (String × ℚ)) : Except String (String × ℚ) :=
  match m with
  | [] => .error "ValueError: max() arg is an empty sequence"
  | kv :: rest =>
      .ok (rest.foldl (fun best kv2 => if kv2.2 > best.2 then kv2 else best) kv)

/-- `MockEmotionRecognizer._generate_random_probabilities(labels)`:
draw `u ~ Uniform(0,1)` per label (the draws come in as `u`), square it,
normalize by the total, round to 4 decimals, and build the dict.
Raises `ZeroDivisionError` when the total is zero and there is at least
one label. -/
def generateRandomProbabilities (labels : List String) (u : ℕ → ℚ) :
    Except String (List (String × ℚ)) :=
  let weights := (List.range labels.length).map (fun j => u j ^ 2)
  let total := weights.sum
  if labels ≠ [] ∧ total = 0 then .error "ZeroDivisionError"
  else
    .ok (dictOf ((labels.zip weights).map
      (fun lw => (lw.1, pyRound 4 (lw.2 / total)))))

/-- The per-face body of `MockEmotionRecognizer.predict`'s loop. -/
def mockPredictOne (labels : List String) (u : ℕ → ℚ) (d : Detection) :
    Except String (EmotionResult ℚ) := do
  let probs ← generateRandomProbabilities labels u
  let dominant ← pyMaxEntry probs
  pure { detection_id := d.id, probabilities := probs,
         dominant_emotion := dominant.1, confidence := dominant.2 }

/-- `MockEmotionRecognizer.predict(frame, detections)`: one result per
*face* detection (other detections are skipped), each from a fresh batch
of random draws (`u i` is face number `i`'s draw stream). -/
def mockPredict (labels : List String) (detections : List Detection)
    (u : ℕ → ℕ → ℚ) : Except String (List (EmotionResult ℚ)) :=
  let faces := detections.filter (fun d => d.type = DetectionType.face)
  faces.enum.mapM (fun id => mockPredictOne labels (u id.1) id.2)

/-! ## `app/core/pipeline.py`: the state machine -/

/-- Embeds `PipelineState`. -/
inductive PipelineState where
  | idle
  | running
  | paused
  | error
  deriving DecidableEq, Repr

/-- The state-machine-relevant part of a `Pipeline` object: its state,
whether the three sub-modules have been constructed (they are `None`
until `initialize()`), whether a status callback is registered, and the
source manager's pause/stop flags. -/
structure PipelineM where
  state : PipelineState
  hasDetector : Bool
  hasRecognizer : Bool
  hasRenderer : Bool
  hasStatusCallback : Bool
  srcPaused : Bool
  srcStopped : Bool
  deriving DecidableEq, Repr

namespace PipelineM

/-- `Pipeline.__init__`: state `IDLE`, no sub-modules, no callbacks. -/
def init : PipelineM :=
  { state := .idle, hasDetector := false, hasRecognizer := false,
    hasRenderer := false, hasStatusCallback := false,
    srcPaused := false, srcStopped := false }

/-- `Pipeline._notify_status()`: emits one status message carrying the
current state when a status callback is registered, else nothing. -/
def notifyStatus (p : PipelineM) : List PipelineState :=
  if p.hasStatusCallback then [p.state] else []

/-- `Pipeline.pause()`: only acts when the state is `RUNNING`; then it
flips to `PAUSED`, pauses the source manager, and (when a status
callback is registered) notifies.  Returns the new pipeline and the
emitted status notifications. -/
def pause (p : PipelineM) : PipelineM × List PipelineState :=
  if p.state = .running then
    let p' := { p with state := .paused, srcPaused := true }
    (p', if p'.hasStatusCallback then p'.notifyStatus else [])
  else (p, [])

/-- `Pipeline.resume()`: only acts when the state is `PAUSED`. -/
def resume (p : PipelineM) : PipelineM × List PipelineState :=
  if p.state = .paused then
    let p' := { p with state := .running, srcPaused := false }
    (p', if p'.hasStatusCallback then p'.notifyStatus else [])
  else (p, [])

/-- `Pipeline.stop()`: unconditionally forces `IDLE` and stops the
source manager, then notifies if a status callback is registered. -/
def stop (p : PipelineM) : PipelineM × List PipelineState :=
  let p' := { p with state := .idle, srcStopped := true }
  (p', if p'.hasStatusCallback then p'.notifyStatus else [])

/-- The entry of `Pipeline.run()` up to the start of the frame loop:
a no-op (with a logged warning) when already running; a `RuntimeError`
when the detector or recognizer is missing; otherwise the transition to
`RUNNING` plus a status notification. -/
def runStart (p : PipelineM) : Except String (PipelineM × List PipelineState) :=
  if p.state = .running then .ok (p, [])
  else if ¬ p.hasDetector ∨ ¬ p.hasRecognizer then
    .error "RuntimeError: pipeline not initialized"
  else
    let p' := { p with state := .running }
    .ok (p', p'.notifyStatus)

end PipelineM

/-! ## `app/core/pipeline.py`: the periodic stats notification -/

/-- The statistics counters of a running `Pipeline`:
`_frame_count`, `_start_time`, `_latency_ms`. -/
structure StatsState where
  frame_count : ℕ
  start_time : ℚ
  latency_ms : ℚ
  deriving DecidableEq, Repr

/-- The payload of one `StatsMessage`. -/
structure StatsMsg where
  fps : ℚ
  latency_ms : ℚ
  detection_count : ℕ
  deriving DecidableEq, Repr

/-- The clock readings of one processed frame: `t0`/`t1` are the
`perf_counter` values framing the frame's processing, `wall` is the
`time.time()` value read when stats are emitted. -/
structure FrameTiming where
  t0 : ℚ
  t1 : ℚ
  wall : ℚ
  deriving DecidableEq, Repr

/-- `Pipeline._notify_stats()`: `fps = frame_count / elapsed` (0 when no
time has elapsed) rounded to 1 decimal, `latency_ms` rounded to 1
decimal, `detection_count = self._frame_count`. -/
def notifyStats (st : StatsState) (now : ℚ) : StatsMsg :=
  let elapsed := now - st.start_time
  let fps : ℚ := if elapsed > 0 then (st.frame_count : ℚ) / elapsed else 0
  { fps := pyRound 1 fps, latency_ms := pyRound 1 st.latency_ms,
    detection_count := st.frame_count }

/-- The statistics bookkeeping of `Pipeline._process_frame`: set
`_latency_ms` from the frame's processing time, increment
`_frame_count`, and emit one stats message when the counter is divisible
by 30. -/
def processFrameStats (st : StatsState) (ft : FrameTiming) :
    StatsState × List StatsMsg :=
  let st' := { st with latency_ms := (ft.t1 - ft.t0) * 1000,
                       frame_count := st.frame_count + 1 }
  (st', if st'.frame_count % 30 = 0 then [notifyStats st' ft.wall] else [])

/-- The frame loop's statistics behaviour over a run: fold
`processFrameStats` over the frames' clock readings, collecting every
emitted stats message in order. -/
def runStats (st : StatsState) (fts : List FrameTiming) :
    StatsState × List StatsMsg :=
  fts.foldl
    (fun acc ft =>
      let r := processFrameStats acc.1 ft
      (r.1, acc.2 ++ r.2))
    (st, [])

/-! ## Real-valued primitives shared by the neural paths

`torch.softmax` / `torch.sigmoid` / `nn.Softmax` use `exp`, so this part
of the embedding lives in `ℝ` and is not executable. -/

/-- Dot product of two vectors (truncating to the shorter). -/
noncomputable def dotR (xs ys : List ℝ) : ℝ :=
  ((xs.zip ys).map (fun p => p.1 * p.2)).sum

/-- `nn.Linear` with weight rows `W` and bias `b`. -/
noncomputable def linearR (W : List (List ℝ)) (b : List ℝ) (v : List ℝ) :
    List ℝ :=
  (W.zip b).map (fun rb => dotR rb.1 v + rb.2)

/-- `nn.ReLU` applied elementwise. -/
noncomputable def reluR (v : List ℝ) : List ℝ := v.map (fun x => max 0 x)

/-- `softmax` over one vector: `exp xᵢ / Σⱼ exp xⱼ`. -/
noncomputable def softmaxRow (v : List ℝ) : List ℝ :=
  let e := v.map Real.exp
  e.map (fun x => x / e.sum)

/-- `torch.sigmoid`: `1 / (1 + exp (-x))`. -/
noncomputable def sigmoidR (x : ℝ) : ℝ := 1 / (1 + Real.exp (-x))

/-- `round(x)` on a real argument: round half to even. -/
noncomputable def roundHalfEvenReal (x : ℝ) : ℤ :=
  let f := ⌊x⌋
  if x - f < 1 / 2 then f
  else if x - f > 1 / 2 then f + 1
  else if f % 2 = 0 then f else f + 1

/-- `round(float(...), 4)` on the real-valued probability outputs. -/
noncomputable def pyRoundReal (ndigits : ℕ) (x : ℝ) : ℝ :=
  (roundHalfEvenReal (x * 10 ^ ndigits) : ℝ) / 10 ^ ndigits

/-! ## `models/emotic.py`: `SESeg1D` -/

/-- Split a list into consecutive segments of length `L`
(`x.view(-1, num_channel, L)` seen per sample); the first argument is
recursion fuel. -/
def chunksAux {α : Type} (L : ℕ) : ℕ → List α → List (List α)
  | 0, _ => []
  | _ + 1, [] => []
  | fuel + 1, x :: xs => ((x :: xs).take L) :: chunksAux L fuel ((x :: xs).drop L)

/-- Split a list into consecutive segments of length `L`. -/
def chunks {α : Type} (L : ℕ) (xs : List α) : List (List α) :=
  chunksAux L xs.length xs

/-- `nn.AdaptiveAvgPool1d(1)` on one segment followed by `squeeze`:
the segment's mean. -/
noncomputable def meanR (s : List ℝ) : ℝ := s.sum / s.length

/-- The parameters of one `SESeg1D` block: besides `features` and `L`,
the weights and biases of the two `nn.Linear` layers
(`fc1 : Linear(num_channel, d)`, `fc2 : Linear(d, num_channel)`). -/
structure SESeg1D where
  features : ℕ
  L : ℕ
  fc1W : List (List ℝ)
  fc1b : List ℝ
  fc2W : List (List ℝ)
  fc2b : List ℝ

/-- The per-sample channel-attention weights computed inside
`SESeg1D.forward`: global-average-pool each segment, `fc1` (Linear +
ReLU), `fc2` (Linear + Softmax over the channels). -/
noncomputable def SESeg1D.attention (m : SESeg1D) (x : List ℝ) : List ℝ :=
  let segs := chunks m.L x
  let fea_s := segs.map meanR
  let fea_z := reluR (linearR m.fc1W m.fc1b fea_s)
  softmaxRow (linearR m.fc2W m.fc2b fea_z)

/-- `SESeg1D.forward` on one sample: reshape into `num_channel` segments
of length `L`, scale each segment by its attention weight, flatten
back. -/
noncomputable def SESeg1D.forward (m : SESeg1D) (x : List ℝ) : List ℝ :=
  let segs := chunks m.L x
  let attn := m.attention x
  ((segs.zip attn).map (fun sa => sa.1.map (fun v => v * sa.2))).flatten

/-- `SESeg1D.forward` on a batch `(B, features)`: the reshape
`view(-1, num_channel, L)` makes the block act independently on each
sample, so the batch forward maps the per-sample forward. -/
noncomputable def SESeg1D.forwardBatch (m : SESeg1D) (xs : List (List ℝ)) :
    List (List ℝ) :=
  xs.map m.forward

/-! ## `app/modules/recognizer/preprocessing.py`: `batch_tensors` -/

/-- `batch_tensors(tensors, device)`: `None` for an empty list, else the
stacked batch (the stack is kept as the list of per-sample tensors). -/
def batchTensors {T : Type} (tensors : List T) : Option (List T) :=
  match tensors with
  | [] => none
  | t :: ts => some (t :: ts)

/-! ## The three model-backed recognizers

The image-crop preprocessing (`prepare_context` / `prepare_body` /
`prepare_face`) and the networks themselves act on pixel data that the
claims never inspect, so they are abstracted as parameters: `prep*`
produces a per-sample input tensor of abstract type `T` from the frame
and a bounding box, and the network is a per-sample function to its
logit vector (torch's `(B, ·) → (B, C)` modules act row-wise in eval
mode). -/

/-- `EMOTIC_LABELS` (26 entries, network output order). -/
def EMOTIC_LABELS : List String :=
  ["喜爱", "愤怒", "烦恼", "期待", "厌恶", "自信", "不满", "疏离", "不安",
   "困惑", "尴尬", "投入", "尊重", "兴奋", "疲惫", "恐惧", "快乐", "痛苦",
   "平静", "愉悦", "悲伤", "敏感", "受苦", "惊讶", "同情", "渴望"]

/-- `CAER_LABELS` (7 entries, network output order). -/
def CAER_LABELS : List String := ["愤怒", "厌恶", "恐惧", "开心", "中性", "悲伤", "惊讶"]

/-- `RAFDB_LABELS` (7 entries, network output order). -/
def RAFDB_LABELS : List String := ["惊讶", "恐惧", "厌恶", "开心", "悲伤", "愤怒", "中性"]

/-- Python `max(d, key=d.get)` on a real-valued dict (the label dicts of
the model-backed recognizers are built from their fixed non-empty label
constants, so the empty case is unreachable there). -/
noncomputable def pyMaxEntryReal (m : List (String × ℝ)) : String × ℝ :=
  match m with
  | [] => ("", 0)
  | kv :: rest =>
      rest.foldl (fun best kv2 => if kv2.2 > best.2 then kv2 else best) kv

/-- Build one `EmotionResult` from a detection and its probability row:
`{label: round(float(p), 4) for j, label in enumerate(labels)}`, then
`dominant = max(prob_dict, key=prob_dict.get)`,
`confidence = prob_dict[dominant]`. -/
noncomputable def buildResult (labels : List String) (d : Detection)
    (row : List ℝ) : EmotionResult ℝ :=
  let prob_dict := dictOf ((labels.zip row).map
    (fun lp => (lp.1, pyRoundReal 4 lp.2)))
  let dominant := pyMaxEntryReal prob_dict
  { detection_id := d.id, probabilities := prob_dict,
    dominant_emotion := dominant.1, confidence := dominant.2 }

section Recognizers

variable {Frame T : Type}

/-- `EmoticRecognizer.predict`: filter faces and persons, run the shared
matcher, keep only faces with a matched person that resolves by id,
build the context/body/face batches, run the net, `sigmoid` the logits,
and build one result per matched face.  An unmatched face is skipped. -/
noncomputable def emoticPredict (prepCtx : Frame → ℕ × ℕ → T)
    (prepBody prepFace : Frame → BoundingBox → ℕ × ℕ → T)
    (net : T → T → T → List ℝ) (frame : Frame)
    (detections : List Detection) : List (EmotionResult ℝ) :=
  let faces := filter_by_type detections .face
  let persons := filter_by_type detections .person
  if faces = [] then []
  else
    let mapping := match_faces_to_persons faces persons (1 / 10)
    let matched := faces.foldl
      (fun acc face =>
        match dictGet mapping face.id with
        | none => acc
        | some person_id =>
            match get_detection_by_id detections person_id with
            | none => acc
            | some person => acc ++ [(face, person)])
      []
    if matched = [] then []
    else
      let context_batch := List.replicate matched.length (prepCtx frame (224, 224))
      let body_tensors := matched.map (fun fp => prepBody frame fp.2.bbox (224, 224))
      let face_tensors := matched.map (fun fp => prepFace frame fp.1.bbox (48, 48))
      match batchTensors context_batch, batchTensors body_tensors,
            batchTensors face_tensors with
      | some cb, some bb, some fb =>
          let logits := (cb.zip (bb.zip fb)).map (fun t => net t.1 t.2.1 t.2.2)
          let probs := logits.map (fun r => r.map sigmoidR)
          (matched.zip probs).map (fun fpr => buildResult EMOTIC_LABELS fpr.1.1 fpr.2)
      | _, _, _ => []

/-- `CaerRecognizer.predict`: every face detection yields one result; the
context crop is shared, no person matching is involved; `softmax` over
the logits. -/
noncomputable def caerPredict (prepCtx : Frame → ℕ × ℕ → T)
    (prepFace : Frame → BoundingBox → ℕ × ℕ → T)
    (net : T → T → List ℝ) (frame : Frame)
    (detections : List Detection) : List (EmotionResult ℝ) :=
  let face_detections := detections.filter (fun d => d.type = DetectionType.face)
  if face_detections = [] then []
  else
    let context_batch :=
      List.replicate face_detections.length (prepCtx frame (224, 224))
    let face_tensors :=
      face_detections.map (fun det => prepFace frame det.bbox (48, 48))
    match batchTensors context_batch, batchTensors face_tensors with
    | some cb, some fb =>
        let logits := (cb.zip fb).map (fun t => net t.1 t.2)
        let probs := logits.map softmaxRow
        (face_detections.zip probs).map (fun dp => buildResult CAER_LABELS dp.1 dp.2)
    | _, _ => []

/-- `DDENRecognizer.predict`: face crops only (`224×224`), one result per
face detection, `softmax` over the logits. -/
noncomputable def ddenPredict (prepFace : Frame → BoundingBox → ℕ × ℕ → T)
    (net : T → List ℝ) (frame : Frame)
    (detections : List Detection) : List (EmotionResult ℝ) :=
  let face_detections := detections.filter (fun d => d.type = DetectionType.face)
  if face_detections = [] then []
  else
    let face_tensors :=
      face_detections.map (fun det => prepFace frame det.bbox (224, 224))
    match batchTensors face_tensors with
    | some fb =>
        let logits := fb.map net
        let probs := logits.map softmaxRow
        (face_detections.zip probs).map (fun dp => buildResult RAFDB_LABELS dp.1 dp.2)
    | none => []

end Recognizers

/-! # Theorems -/

/-! ## C6: properties of `BoundingBox.iou` -/

/-- The two rectangles overlap in the sense of the code's branch test
(`inter_x2 > inter_x1 and inter_y2 > inter_y1`). -/
def BoundingBox.overlaps (a b : BoundingBox) : Prop :=
  max a.x b.x < min a.x2 b.x2 ∧ max a.y b.y < min a.y2 b.y2

instance (a b : BoundingBox) : Decidable (a.overlaps b) := by
  unfold BoundingBox.overlaps; infer_instance

/-- The intersection area as computed by `iou` (0 outside the overlap
branch). -/
def BoundingBox.interArea (a b : BoundingBox) : ℚ :=
  if a.overlaps b then
    (min a.x2 b.x2 - max a.x b.x) * (min a.y2 b.y2 - max a.y b.y)
  else 0

/-- The union area as computed by `iou`. -/
def BoundingBox.unionArea (a b : BoundingBox) : ℚ :=
  a.area + b.area - a.interArea b

theorem iou_eq_cases (a b : BoundingBox) :
    a.iou b = if a.overlaps b ∧ a.unionArea b > 0 then
      a.interArea b / a.unionArea b else 0 := by
  by_cases hov : a.overlaps b
  · have hc : ¬ (min a.x2 b.x2 ≤ max a.x b.x ∨ min a.y2 b.y2 ≤ max a.y b.y) := by
      push_neg
      exact ⟨hov.1, hov.2⟩
    simp only [BoundingBox.iou]
    rw [if_neg hc]
    simp only [BoundingBox.unionArea, BoundingBox.interArea, if_pos hov]
    by_cases hu : a.area + b.area -
        (min a.x2 b.x2 - max a.x b.x) * (min a.y2 b.y2 - max a.y b.y) > 0
    · rw [if_pos hu, if_pos (And.intro hov hu)]
    · rw [if_neg hu, if_neg (fun h => hu h.2)]
  · have hc : min a.x2 b.x2 ≤ max a.x b.x ∨ min a.y2 b.y2 ≤ max a.y b.y := by
      by_contra hcon
      push_neg at hcon
      exact hov ⟨hcon.1, hcon.2⟩
    simp only [BoundingBox.iou]
    rw [if_pos hc, if_neg (fun h => hov h.1)]

theorem interArea_le_area_left {a b : BoundingBox} (h : a.overlaps b) :
    a.interArea b ≤ a.area := by
  obtain ⟨hx, hy⟩ := h
  simp only [BoundingBox.interArea, BoundingBox.overlaps, if_pos (And.intro hx hy),
    BoundingBox.area]
  have hx1 : a.x ≤ max a.x b.x := le_max_left _ _
  have hx2 : min a.x2 b.x2 ≤ a.x2 := min_le_left _ _
  have hy1 : a.y ≤ max a.y b.y := le_max_left _ _
  have hy2 : min a.y2 b.y2 ≤ a.y2 := min_le_left _ _
  have hwx : min a.x2 b.x2 - max a.x b.x ≤ a.width := by
    simp only [BoundingBox.x2] at hx2 ⊢; linarith
  have hwy : min a.y2 b.y2 - max a.y b.y ≤ a.height := by
    simp only [BoundingBox.y2] at hy2 ⊢; linarith
  have h1 : (0:ℚ) ≤ min a.x2 b.x2 - max a.x b.x := by linarith
  have h2 : (0:ℚ) ≤ min a.y2 b.y2 - max a.y b.y := by linarith
  nlinarith

theorem interArea_le_area_right {a b : BoundingBox} (h : a.overlaps b) :
    a.interArea b ≤ b.area := by
  obtain ⟨hx, hy⟩ := h
  simp only [BoundingBox.interArea, BoundingBox.overlaps, if_pos (And.intro hx hy),
    BoundingBox.area]
  have hx1 : b.x ≤ max a.x b.x := le_max_right _ _
  have hx2 : min a.x2 b.x2 ≤ b.x2 := min_le_right _ _
  have hy1 : b.y ≤ max a.y b.y := le_max_right _ _
  have hy2 : min a.y2 b.y2 ≤ b.y2 := min_le_right _ _
  have hwx : min a.x2 b.x2 - max a.x b.x ≤ b.width := by
    simp only [BoundingBox.x2] at hx2 ⊢; linarith
  have hwy : min a.y2 b.y2 - max a.y b.y ≤ b.height := by
    simp only [BoundingBox.y2] at hy2 ⊢; linarith
  have h1 : (0:ℚ) ≤ min a.x2 b.x2 - max a.x b.x := by linarith
  have h2 : (0:ℚ) ≤ min a.y2 b.y2 - max a.y b.y := by linarith
  nlinarith

theorem interArea_pos {a b : BoundingBox} (h : a.overlaps b) :
    0 < a.interArea b := by
  obtain ⟨hx, hy⟩ := h
  simp only [BoundingBox.interArea, BoundingBox.overlaps, if_pos (And.intro hx hy)]
  have h1 : (0:ℚ) < min a.x2 b.x2 - max a.x b.x := by linarith
  have h2 : (0:ℚ) < min a.y2 b.y2 - max a.y b.y := by linarith
  positivity

theorem overlaps_comm (a b : BoundingBox) : a.overlaps b ↔ b.overlaps a := by
  unfold BoundingBox.overlaps
  rw [max_comm, min_comm, max_comm a.y, min_comm a.y2]

theorem interArea_comm (a b : BoundingBox) : a.interArea b = b.interArea a := by
  unfold BoundingBox.interArea
  by_cases h : a.overlaps b
  · rw [if_pos h, if_pos ((overlaps_comm a b).mp h), max_comm, min_comm,
      max_comm a.y, min_comm a.y2]
  · rw [if_neg h, if_neg (fun h2 => h ((overlaps_comm b a).mp h2))]

theorem unionArea_comm (a b : BoundingBox) : a.unionArea b = b.unionArea a := by
  unfold BoundingBox.unionArea
  rw [interArea_comm, add_comm]

theorem iou_comm (a b : BoundingBox) : a.iou b = b.iou a := by
  rw [iou_eq_cases, iou_eq_cases, interArea_comm, unionArea_comm]
  exact if_congr (and_congr_left' (overlaps_comm a b)) rfl rfl

theorem iou_mem_unit (a b : BoundingBox) : 0 ≤ a.iou b ∧ a.iou b ≤ 1 := by
  rw [iou_eq_cases]
  by_cases h : a.overlaps b ∧ a.unionArea b > 0
  · rw [if_pos h]
    have hI : 0 < a.interArea b := interArea_pos h.1
    have hIU : a.interArea b ≤ a.unionArea b := by
      have h1 := interArea_le_area_left h.1
      have h2 := interArea_le_area_right h.1
      unfold BoundingBox.unionArea
      linarith
    constructor
    · exact le_of_lt (div_pos hI h.2)
    · exact (div_le_one h.2).mpr hIU
  · rw [if_neg h]
    norm_num

theorem iou_self_of_pos {a : BoundingBox} (hw : 0 < a.width)
    (hh : 0 < a.height) : a.iou a = 1 := by
  have hov : a.overlaps a := by
    constructor
    · simp only [max_self, min_self, BoundingBox.x2]; linarith
    · simp only [max_self, min_self, BoundingBox.y2]; linarith
  have hI : a.interArea a = a.area := by
    simp only [BoundingBox.interArea, if_pos hov, max_self, min_self,
      BoundingBox.x2, BoundingBox.y2, BoundingBox.area]
    ring
  have hU : a.unionArea a = a.area := by
    simp only [BoundingBox.unionArea, hI]; ring
  have hA : 0 < a.area := by
    simp only [BoundingBox.area]; exact mul_pos hw hh
  rw [iou_eq_cases, if_pos (And.intro hov (by rw [hU]; exact hA)), hI, hU]
  exact div_self (ne_of_gt hA)

/-- C6 is corrected by this counterexample: the claim asserts
`iou = 1.0` for *any* two identical boxes, but an identical degenerate
box (zero width and height) yields `0.0` — the code's non-overlap branch
fires because `inter_x2 <= inter_x1`. -/
theorem C6_counterexample :
    (BoundingBox.mk 0 0 0 0).iou (BoundingBox.mk 0 0 0 0) = 0 ∧
    ¬ (BoundingBox.mk 0 0 0 0).iou (BoundingBox.mk 0 0 0 0) = 1 := by
  have h : (BoundingBox.mk 0 0 0 0).iou (BoundingBox.mk 0 0 0 0) = 0 := by
    norm_num [BoundingBox.iou, BoundingBox.x2, BoundingBox.y2]
  exact ⟨h, by rw [h]; norm_num⟩

/-- C6 (amended): `BoundingBox.iou` is symmetric and always in `[0,1]`;
it is `0.0` when the boxes do not overlap or the union area is `0`; it is
`1.0` for two identical boxes of positive width and height (for an
identical degenerate box it is `0.0`, see the counterexample); and for
box `(0,0,10,10)` vs `(5,5,10,10)` the intersection area is `25`, the
union area is `175`, and the IoU is `25/175 = 1/7`. -/
theorem C6_iou_spec :
    (∀ a b : BoundingBox, a.iou b = b.iou a) ∧
    (∀ a b : BoundingBox, 0 ≤ a.iou b ∧ a.iou b ≤ 1) ∧
    (∀ a b : BoundingBox, (¬ a.overlaps b ∨ a.unionArea b = 0) → a.iou b = 0) ∧
    (∀ a : BoundingBox, 0 < a.width → 0 < a.height → a.iou a = 1) ∧
    ((BoundingBox.mk 0 0 10 10).interArea (BoundingBox.mk 5 5 10 10) = 25 ∧
     (BoundingBox.mk 0 0 10 10).unionArea (BoundingBox.mk 5 5 10 10) = 175 ∧
     (BoundingBox.mk 0 0 10 10).iou (BoundingBox.mk 5 5 10 10) = 25 / 175) := by
  refine ⟨iou_comm, iou_mem_unit, ?_, fun a => iou_self_of_pos, ?_, ?_, ?_⟩
  · intro a b h
    rw [iou_eq_cases]
    rcases h with h | h
    · exact if_neg (fun hc => h hc.1)
    · exact if_neg (fun hc => absurd h (ne_of_gt hc.2))
  · norm_num [BoundingBox.interArea, BoundingBox.overlaps, BoundingBox.x2,
      BoundingBox.y2]
  · norm_num [BoundingBox.unionArea, BoundingBox.interArea,
      BoundingBox.overlaps, BoundingBox.x2, BoundingBox.y2, BoundingBox.area]
  · norm_num [BoundingBox.iou, BoundingBox.x2, BoundingBox.y2,
      BoundingBox.area]

/-- Witness for C6: the hypothesis-bearing conjuncts applied at concrete
boxes. -/
theorem C6_iou_spec_witness :
    ((¬ (BoundingBox.mk 0 0 1 1).overlaps (BoundingBox.mk 5 5 1 1)) ∧
     (BoundingBox.mk 0 0 1 1).iou (BoundingBox.mk 5 5 1 1) = 0) ∧
    ((0:ℚ) < 10 ∧
     (BoundingBox.mk 2 3 10 10).iou (BoundingBox.mk 2 3 10 10) = 1) :=
  ⟨⟨by norm_num [BoundingBox.overlaps, BoundingBox.x2, BoundingBox.y2],
    C6_iou_spec.2.2.1 _ _ (Or.inl
      (by norm_num [BoundingBox.overlaps, BoundingBox.x2, BoundingBox.y2]))⟩,
   ⟨by norm_num, C6_iou_spec.2.2.2.1 _ (by norm_num) (by norm_num)⟩⟩

/-! ## C3: the default pretrained weight file of the object detector -/

/-- C3 is corrected by this counterexample: two detector configurations
that differ only in `model_size` (all other fields at their defaults) do
*not* load the same default weight file — `load_model` builds
`f"yolo11{model_size.value}.pt"`. -/
theorem C3_counterexample :
    yoloWeightFile { model_size := ModelSize.nano } none (fun _ => false) ≠
    yoloWeightFile { model_size := ModelSize.small } none (fun _ => false) := by
  decide

/-- C3 (amended): when no caller-supplied custom weight path is in use,
`load_model` loads the size-parameterized pretrained weight file
`yolo11{model_size}.pt`; consequently two default-path configurations
with distinct model sizes load *distinct* weight files (the model-size
selector is effective for the default path, not inert). -/
theorem C3_default_weight_size_dependent :
    (∀ (c : DetectorConfig) (pe : String → Bool),
      yoloWeightFile c none pe = "yolo11" ++ c.model_size.value ++ ".pt") ∧
    (∀ (c₁ c₂ : DetectorConfig) (pe₁ pe₂ : String → Bool),
      c₁.model_size ≠ c₂.model_size →
      yoloWeightFile c₁ none pe₁ ≠ yoloWeightFile c₂ none pe₂) := by
  refine ⟨fun c pe => rfl, ?_⟩
  intro c₁ c₂ pe₁ pe₂ hne heq
  simp only [yoloWeightFile] at heq
  cases h1 : c₁.model_size <;> cases h2 : c₂.model_size <;>
    rw [h1, h2] at heq hne <;>
    first
      | exact hne rfl
      | exact absurd heq (by decide)

/-- Witness for C3: the distinct-sizes conjunct applied at the
nano/xlarge pair. -/
theorem C3_default_weight_size_dependent_witness :
    (ModelSize.nano ≠ ModelSize.xlarge) ∧
    yoloWeightFile { model_size := ModelSize.nano } none (fun _ => true) ≠
    yoloWeightFile { model_size := ModelSize.xlarge } none (fun _ => true) :=
  ⟨by decide, C3_default_weight_size_dependent.2 _ _ _ _ (by decide)⟩

/-! ## C1: the pipeline orchestrator's state machine -/

/-- C1: a newly constructed `Pipeline` is `idle` with no sub-modules
constructed; `pause()` moves `running` to `paused` and is a strict no-op
(no state change, no status notification) in every other state, in
particular while `idle`; `resume()` moves `paused` to `running` and is
otherwise a no-op; `stop()` forces `idle` from every state; and `run()`
is a no-op (only a warning is logged) when already `running`. -/
theorem C1_pipeline_state_machine :
    (PipelineM.init.state = PipelineState.idle ∧
     PipelineM.init.hasDetector = false ∧
     PipelineM.init.hasRecognizer = false ∧
     PipelineM.init.hasRenderer = false) ∧
    (∀ p : PipelineM, p.state = PipelineState.running →
      p.pause.1.state = PipelineState.paused) ∧
    (∀ p : PipelineM, p.state ≠ PipelineState.running → p.pause = (p, [])) ∧
    (∀ p : PipelineM, p.state = PipelineState.idle →
      p.pause.1.state = PipelineState.idle ∧ p.pause.2 = []) ∧
    (∀ p : PipelineM, p.state = PipelineState.paused →
      p.resume.1.state = PipelineState.running) ∧
    (∀ p : PipelineM, p.state ≠ PipelineState.paused → p.resume = (p, [])) ∧
    (∀ p : PipelineM, p.stop.1.state = PipelineState.idle) ∧
    (∀ p : PipelineM, p.state = PipelineState.running →
      p.runStart = Except.ok (p, [])) := by
  refine ⟨⟨rfl, rfl, rfl, rfl⟩, ?_, ?_, ?_, ?_, ?_, ?_, ?_⟩
  · intro p h
    simp [PipelineM.pause, h]
  · intro p h
    simp [PipelineM.pause, h]
  · intro p h
    have hne : p.state ≠ PipelineState.running := by rw [h]; decide
    simp [PipelineM.pause, hne, h]
  · intro p h
    simp [PipelineM.resume, h]
  · intro p h
    simp [PipelineM.resume, h]
  · intro p
    simp [PipelineM.stop]
  · intro p h
    simp [PipelineM.runStart, h]

/-- Witness for C1: the transition conjuncts applied at concrete
pipeline values. -/
theorem C1_pipeline_state_machine_witness :
    (PipelineM.init.state = PipelineState.idle ∧
     PipelineM.init.pause.1.state = PipelineState.idle ∧
     PipelineM.init.pause.2 = []) ∧
    ({ PipelineM.init with state := PipelineState.running
       }.pause.1.state = PipelineState.paused) ∧
    ({ PipelineM.init with state := PipelineState.paused
       }.resume.1.state = PipelineState.running) ∧
    ({ PipelineM.init with state := PipelineState.error
       }.stop.1.state = PipelineState.idle) ∧
    ({ PipelineM.init with
        state := PipelineState.running,
        hasStatusCallback := true }.runStart =
      Except.ok ({ PipelineM.init with
        state := PipelineState.running,
        hasStatusCallback := true }, [])) :=
  ⟨⟨rfl,
    (C1_pipeline_state_machine.2.2.2.1 _ rfl).1,
    (C1_pipeline_state_machine.2.2.2.1 _ rfl).2⟩,
   C1_pipeline_state_machine.2.1 _ rfl,
   C1_pipeline_state_machine.2.2.2.2.1 _ rfl,
   C1_pipeline_state_machine.2.2.2.2.2.2.1 _,
   C1_pipeline_state_machine.2.2.2.2.2.2.2 _ rfl⟩

/-! ## Helper lemmas for the mock recognizer (C5, C10) -/

theorem abs_roundHalfEven_sub (q : ℚ) : |(roundHalfEven q : ℚ) - q| ≤ 1 / 2 := by
  have hf : ((⌊q⌋ : ℚ)) ≤ q := Int.floor_le q
  have hq : q < (⌊q⌋ : ℚ) + 1 := Int.lt_floor_add_one q
  simp only [roundHalfEven]
  split_ifs with h1 h2 h3 <;>
    rw [abs_le] <;> push_cast <;> constructor <;> linarith

theorem abs_pyRound_sub (n : ℕ) (q : ℚ) :
    |pyRound n q - q| ≤ 1 / (2 * 10 ^ n) := by
  have h := abs_roundHalfEven_sub (q * 10 ^ n)
  have hp : (0:ℚ) < 10 ^ n := by positivity
  unfold pyRound
  have heq : (roundHalfEven (q * 10 ^ n) : ℚ) / 10 ^ n - q =
      ((roundHalfEven (q * 10 ^ n) : ℚ) - q * 10 ^ n) / 10 ^ n := by
    field_simp
    ring
  rw [heq, abs_div, abs_of_pos hp, div_le_div_iff hp (by positivity)]
  calc |(roundHalfEven (q * 10 ^ n) : ℚ) - q * 10 ^ n| * (2 * 10 ^ n)
      ≤ (1 / 2) * (2 * 10 ^ n) := by
        apply mul_le_mul_of_nonneg_right h; positivity
    _ = 1 * 10 ^ n := by ring

theorem sum_map_sub_bound (l : List ℚ) (f g : ℚ → ℚ) (ε : ℚ)
    (hε : 0 ≤ ε) (h : ∀ x ∈ l, |f x - g x| ≤ ε) :
    |(l.map f).sum - (l.map g).sum| ≤ l.length * ε := by
  induction l with
  | nil => simp
  | cons a t ih =>
      have ha := h a (List.mem_cons_self a t)
      have ht := ih (fun x hx => h x (List.mem_cons_of_mem a hx))
      simp only [List.map_cons, List.sum_cons, List.length_cons]
      have : f a + (t.map f).sum - (g a + (t.map g).sum) =
          (f a - g a) + ((t.map f).sum - (t.map g).sum) := by ring
      rw [this]
      calc |(f a - g a) + ((t.map f).sum - (t.map g).sum)|
          ≤ |f a - g a| + |(t.map f).sum - (t.map g).sum| := abs_add _ _
        _ ≤ ε + t.length * ε := add_le_add ha ht
        _ = (t.length + 1) * ε := by ring
        _ = ((t.length + 1 : ℕ) : ℚ) * ε := by push_cast; ring

theorem sum_map_div {K : Type} [DivisionRing K] (l : List K) (c : K) :
    (l.map (fun x => x / c)).sum = l.sum / c := by
  induction l with
  | nil => simp
  | cons a t ih => simp [ih, add_div]

theorem dictInsert_of_not_mem {κ ν : Type} [DecidableEq κ]
    (m : List (κ × ν)) (k : κ) (v : ν) (h : k ∉ m.map Prod.fst) :
    dictInsert m k v = m ++ [(k, v)] := by
  unfold dictInsert
  have : m.any (fun kv => kv.1 = k) = false := by
    rw [List.any_eq_false]
    intro kv hkv
    simp only [decide_eq_true_eq]
    intro he
    exact h (he ▸ List.mem_map_of_mem Prod.fst hkv)
  simp [this]

theorem dictOf_go_eq {κ ν : Type} [DecidableEq κ] :
    ∀ (l m : List (κ × ν)), (l.map Prod.fst).Nodup →
      (∀ k ∈ l.map Prod.fst, k ∉ m.map Prod.fst) →
      l.foldl (fun m kv => dictInsert m kv.1 kv.2) m = m ++ l := by
  intro l
  induction l with
  | nil => intro m _ _; simp
  | cons a t ih =>
      intro m hnd hdisj
      simp only [List.foldl_cons]
      rw [dictInsert_of_not_mem m a.1 a.2
        (hdisj a.1 (by simp))]
      have hnd' : (t.map Prod.fst).Nodup := by
        simp only [List.map_cons, List.nodup_cons] at hnd
        exact hnd.2
      have hdisj' : ∀ k ∈ t.map Prod.fst, k ∉ (m ++ [(a.1, a.2)]).map Prod.fst := by
        intro k hk
        simp only [List.map_append, List.mem_append, List.map_cons]
        rintro (hm | hs)
        · exact hdisj k (by simp [hk]) hm
        · simp only [List.map_nil, List.mem_cons, List.not_mem_nil, or_false] at hs
          simp only [List.map_cons, List.nodup_cons] at hnd
          exact hnd.1 (hs ▸ hk)
      rw [ih (m ++ [(a.1, a.2)]) hnd' hdisj']
      simp

theorem dictOf_eq_self {κ ν : Type} [DecidableEq κ] (l : List (κ × ν))
    (h : (l.map Prod.fst).Nodup) : dictOf l = l := by
  unfold dictOf
  rw [dictOf_go_eq l [] h (by simp)]
  simp

theorem foldMax_mem :
    ∀ (rest : List (String × ℚ)) (kv : String × ℚ),
      (rest.foldl (fun best kv2 => if kv2.2 > best.2 then kv2 else best) kv)
        ∈ kv :: rest := by
  intro rest
  induction rest with
  | nil => intro kv; simp
  | cons a t ih =>
      intro kv
      simp only [List.foldl_cons]
      by_cases h : a.2 > kv.2
      · rw [if_pos h]
        have := ih a
        rcases List.mem_cons.mp this with h1 | h1
        · simp [h1]
        · simp [List.mem_cons, h1]
      · rw [if_neg h]
        have := ih kv
        rcases List.mem_cons.mp this with h1 | h1
        · simp [h1]
        · simp [List.mem_cons, h1]

theorem foldMax_ge :
    ∀ (rest : List (String × ℚ)) (kv : String × ℚ) (y : String × ℚ),
      y ∈ kv :: rest →
      y.2 ≤ (rest.foldl (fun best kv2 => if kv2.2 > best.2 then kv2 else best) kv).2 := by
  intro rest
  induction rest with
  | nil =>
      intro kv y hy
      simp only [List.mem_singleton] at hy
      simp [hy]
  | cons a t ih =>
      intro kv y hy
      simp only [List.foldl_cons]
      by_cases h : a.2 > kv.2
      · rw [if_pos h]
        rcases List.mem_cons.mp hy with h1 | h1
        · have ha := ih a a (List.mem_cons_self a t)
          rw [h1]
          linarith
        · exact ih a y h1
      · rw [if_neg h]
        rcases List.mem_cons.mp hy with h1 | h1
        · rw [h1]
          exact ih kv kv (List.mem_cons_self kv t)
        · rcases List.mem_cons.mp h1 with h2 | h2
          · have hkv := ih kv kv (List.mem_cons_self kv t)
            rw [h2]
            push_neg at h
            linarith
          · exact ih kv y (List.mem_cons_of_mem kv h2)

theorem pyMaxEntry_spec (m : List (String × ℚ)) (hne : m ≠ []) :
    ∃ e, pyMaxEntry m = .ok e ∧ e ∈ m ∧ ∀ y ∈ m, y.2 ≤ e.2 := by
  cases m with
  | nil => exact absurd rfl hne
  | cons kv rest =>
      exact ⟨_, rfl, foldMax_mem rest kv, fun y hy => foldMax_ge rest kv y hy⟩

theorem zip_map_snd (f : ℚ → ℚ) :
    ∀ (ls : List String) (ws : List ℚ), ls.length = ws.length →
      ((ls.zip ws).map (fun lw => (lw.1, f lw.2))).map Prod.snd = ws.map f := by
  intro ls
  induction ls with
  | nil =>
      intro ws h
      cases ws with
      | nil => simp
      | cons a t => simp at h
  | cons a t ih =>
      intro ws h
      cases ws with
      | nil => simp at h
      | cons b u =>
          simp only [List.zip_cons_cons, List.map_cons]
          rw [ih u (by simpa using h)]

theorem zip_map_fst (f : ℚ → ℚ) :
    ∀ (ls : List String) (ws : List ℚ), ls.length = ws.length →
      ((ls.zip ws).map (fun lw => (lw.1, f lw.2))).map Prod.fst = ls := by
  intro ls
  induction ls with
  | nil =>
      intro ws h
      cases ws with
      | nil => simp
      | cons a t => simp at h
  | cons a t ih =>
      intro ws h
      cases ws with
      | nil => simp at h
      | cons b u =>
          simp only [List.zip_cons_cons, List.map_cons]
          rw [ih u (by simpa using h)]

theorem mapM_ok {α β ε : Type} (f : α → Except ε β) (g : α → β) :
    ∀ l : List α, (∀ x ∈ l, f x = .ok (g x)) → l.mapM f = .ok (l.map g) := by
  intro l
  induction l with
  | nil => intro _; rfl
  | cons a t ih =>
      intro h
      rw [List.mapM_cons, h a (List.mem_cons_self a t),
        ih (fun x hx => h x (List.mem_cons_of_mem a hx))]
      rfl

/-- The squared uniform draws of one `predict` call for one face
(`weights = [random.random() ** 2 for _ in labels]`). -/
def mockWeights (labels : List String) (ui : ℕ → ℚ) : List ℚ :=
  (List.range labels.length).map (fun j => ui j ^ 2)

/-- The probability list built by `_generate_random_probabilities` in the
non-raising case. -/
def mockProbs (labels : List String) (ui : ℕ → ℚ) : List (String × ℚ) :=
  (labels.zip (mockWeights labels ui)).map
    (fun lw => (lw.1, pyRound 4 (lw.2 / (mockWeights labels ui).sum)))

/-- The `EmotionResult` built by the mock recognizer for one face in the
non-raising case. -/
def mockResult (labels : List String) (ui : ℕ → ℚ) (d : Detection) :
    EmotionResult ℚ :=
  let probs := mockProbs labels ui
  let dom := match pyMaxEntry probs with
    | .ok e => e
    | .error _ => ("", 0)
  { detection_id := d.id, probabilities := probs,
    dominant_emotion := dom.1, confidence := dom.2 }

theorem mockWeights_length (labels : List String) (ui : ℕ → ℚ) :
    (mockWeights labels ui).length = labels.length := by
  simp [mockWeights]

theorem mockProbs_length (labels : List String) (ui : ℕ → ℚ) :
    (mockProbs labels ui).length = labels.length := by
  simp [mockProbs, mockWeights]

theorem generateRandomProbabilities_ok (labels : List String) (ui : ℕ → ℚ)
    (hnd : labels.Nodup) (ht : (mockWeights labels ui).sum ≠ 0) :
    generateRandomProbabilities labels ui = .ok (mockProbs labels ui) := by
  unfold generateRandomProbabilities
  rw [if_neg (fun h => ht h.2)]
  congr 1
  have hkeys : ((labels.zip (mockWeights labels ui)).map
      (fun lw => (lw.1, pyRound 4 (lw.2 / (mockWeights labels ui).sum)))).map
        Prod.fst = labels :=
    zip_map_fst (fun x => pyRound 4 (x / (mockWeights labels ui).sum)) labels
      (mockWeights labels ui) (mockWeights_length labels ui).symm
  calc dictOf ((labels.zip ((List.range labels.length).map (fun j => ui j ^ 2))).map
        (fun lw => (lw.1, pyRound 4 (lw.2 /
          ((List.range labels.length).map (fun j => ui j ^ 2)).sum))))
      = dictOf ((labels.zip (mockWeights labels ui)).map
        (fun lw => (lw.1, pyRound 4 (lw.2 / (mockWeights labels ui).sum)))) := rfl
    _ = mockProbs labels ui := by
        rw [dictOf_eq_self _ (by rw [hkeys]; exact hnd)]
        rfl

theorem mockPredictOne_ok (labels : List String) (ui : ℕ → ℚ) (d : Detection)
    (hne : labels ≠ []) (hnd : labels.Nodup)
    (ht : (mockWeights labels ui).sum ≠ 0) :
    mockPredictOne labels ui d = .ok (mockResult labels ui d) := by
  have hpne : mockProbs labels ui ≠ [] := by
    intro h
    have := mockProbs_length labels ui
    rw [h] at this
    exact hne (List.length_eq_zero.mp this.symm)
  obtain ⟨e, he, _, _⟩ := pyMaxEntry_spec (mockProbs labels ui) hpne
  unfold mockPredictOne
  rw [generateRandomProbabilities_ok labels ui hnd ht]
  unfold mockResult
  simp only [Bind.bind, Except.bind, he, pure, Except.pure]

/-- C10: the mock recognizer's `predict` is total only when the configured
label list is non-empty: with an empty label list and at least one face
detection it raises (`max()` over the empty probability dict), instead of
returning a result list. -/
theorem C10_mock_empty_labels_raises (dets : List Detection) (u : ℕ → ℕ → ℚ)
    (h : ∃ d ∈ dets, d.type = DetectionType.face) :
    mockPredict [] dets u =
      .error "ValueError: max() arg is an empty sequence" := by
  obtain ⟨d, hd, hface⟩ := h
  unfold mockPredict
  have hmem : d ∈ dets.filter (fun d => d.type = DetectionType.face) :=
    List.mem_filter.mpr ⟨hd, by simp [hface]⟩
  cases hf : dets.filter (fun d => d.type = DetectionType.face) with
  | nil => rw [hf] at hmem; exact absurd hmem (List.not_mem_nil d)
  | cons f rest =>
      have hone : ∀ (j : ℕ) (z : Detection), mockPredictOne [] (u j) z =
          .error "ValueError: max() arg is an empty sequence" := by
        intro j z
        unfold mockPredictOne generateRandomProbabilities
        simp [dictOf, pyMaxEntry, Bind.bind, Except.bind]
      simp [List.enum, List.enumFrom, List.mapM_cons, List.mapM.loop, hone,
        Bind.bind, Except.bind]

/-- A concrete face detection used by witnesses. -/
def sampleFace : Detection :=
  { id := 1, type := DetectionType.face, bbox := BoundingBox.mk 0 0 10 10,
    confidence := 9 / 10 }

/-- Witness for C10 at a concrete face detection. -/
theorem C10_mock_empty_labels_raises_witness :
    (∃ d ∈ [sampleFace], d.type = DetectionType.face) ∧
    mockPredict [] [sampleFace] (fun _ _ => 0) =
      .error "ValueError: max() arg is an empty sequence" :=
  ⟨⟨sampleFace, List.mem_singleton.mpr rfl, rfl⟩,
   C10_mock_empty_labels_raises _ _
     ⟨sampleFace, List.mem_singleton.mpr rfl, rfl⟩⟩

/-- C5: with a non-empty (duplicate-free) label set and draws whose
squared total is non-zero, the mock recognizer's `predict` succeeds and
produces exactly one result per face detection (none for non-face
detections, and the results carry the face ids in order); every result's
probability map sums to 1 within `num_labels × 0.00005`, and its
`dominant_emotion`/`confidence` pair is an entry of the map attaining
the maximum probability. -/
theorem C5_mock_predict_spec (labels : List String) (dets : List Detection)
    (u : ℕ → ℕ → ℚ) (hne : labels ≠ []) (hnd : labels.Nodup)
    (ht : ∀ i, (mockWeights labels (u i)).sum ≠ 0) :
    ∃ res, mockPredict labels dets u = .ok res ∧
      res.length = (dets.filter (fun d => d.type = DetectionType.face)).length ∧
      res.map (fun r => r.detection_id) =
        (dets.filter (fun d => d.type = DetectionType.face)).map
          (fun d => d.id) ∧
      ∀ r ∈ res,
        |(r.probabilities.map Prod.snd).sum - 1| ≤
          labels.length * (5 / 100000) ∧
        (r.dominant_emotion, r.confidence) ∈ r.probabilities ∧
        ∀ p ∈ r.probabilities, p.2 ≤ r.confidence := by
  refine ⟨(dets.filter (fun d => d.type = DetectionType.face)).enum.map
    (fun p => mockResult labels (u p.1) p.2), ?_, ?_, ?_, ?_⟩
  · unfold mockPredict
    exact mapM_ok _ _ _
      (fun p _ => mockPredictOne_ok labels (u p.1) p.2 hne hnd (ht p.1))
  · simp
  · rw [List.map_map]
    rw [show ((fun r : EmotionResult ℚ => r.detection_id) ∘
        (fun p : ℕ × Detection => mockResult labels (u p.1) p.2)) =
      ((fun d : Detection => d.id) ∘ Prod.snd) from rfl]
    rw [← List.map_map, List.enum_map_snd]
  · intro r hr
    obtain ⟨p, hp, hre⟩ := List.mem_map.mp hr
    have hpne : mockProbs labels (u p.1) ≠ [] := by
      intro h
      have := mockProbs_length labels (u p.1)
      rw [h] at this
      exact hne (List.length_eq_zero.mp this.symm)
    obtain ⟨e, he, hmem, hge⟩ := pyMaxEntry_spec (mockProbs labels (u p.1)) hpne
    have hres : r = ⟨p.2.id, mockProbs labels (u p.1), e.1, e.2⟩ := by
      rw [← hre]
      simp only [mockResult, he]
    subst hres
    refine ⟨?_, ?_, ?_⟩
    · -- probability sum within tolerance
      have hsnd : (mockProbs labels (u p.1)).map Prod.snd =
          (mockWeights labels (u p.1)).map
            (fun w => pyRound 4 (w / (mockWeights labels (u p.1)).sum)) := by
        unfold mockProbs
        exact zip_map_snd
          (fun w => pyRound 4 (w / (mockWeights labels (u p.1)).sum)) labels
          (mockWeights labels (u p.1))
          (mockWeights_length labels (u p.1)).symm
      have h1 : ((mockWeights labels (u p.1)).map
          (fun w => w / (mockWeights labels (u p.1)).sum)).sum = 1 := by
        rw [sum_map_div]
        exact div_self (ht p.1)
      have h2 := sum_map_sub_bound (mockWeights labels (u p.1))
        (fun w => pyRound 4 (w / (mockWeights labels (u p.1)).sum))
        (fun w => w / (mockWeights labels (u p.1)).sum)
        (1 / 20000) (by norm_num)
        (fun w _ => by
          have := abs_pyRound_sub 4 (w / (mockWeights labels (u p.1)).sum)
          calc |pyRound 4 (w / (mockWeights labels (u p.1)).sum) -
                w / (mockWeights labels (u p.1)).sum| ≤ 1 / (2 * 10 ^ 4) := this
            _ = 1 / 20000 := by norm_num)
      rw [h1] at h2
      have hlen : (mockWeights labels (u p.1)).length = labels.length :=
        mockWeights_length labels (u p.1)
      calc |((⟨p.2.id, mockProbs labels (u p.1), e.1, e.2⟩
              : EmotionResult ℚ).probabilities.map Prod.snd).sum - 1|
          = |((mockWeights labels (u p.1)).map
              (fun w => pyRound 4 (w /
                (mockWeights labels (u p.1)).sum))).sum - 1| := by rw [hsnd]
        _ ≤ (mockWeights labels (u p.1)).length * (1 / 20000) := h2
        _ = labels.length * (5 / 100000) := by rw [hlen]; norm_num
    · simpa using hmem
    · intro q hq
      exact hge q hq

/-- Witness for C5 applied at two labels, one face and one person
detection, and constant draws. -/
theorem C5_mock_predict_spec_witness :
    ((["happy", "sad"] : List String) ≠ [] ∧
     (["happy", "sad"] : List String).Nodup ∧
     (∀ i : ℕ, (mockWeights ["happy", "sad"] (fun _ => 1)).sum ≠ 0 ∨ i = i)) ∧
    (∃ res, mockPredict ["happy", "sad"]
        [sampleFace,
         { id := 2, type := DetectionType.person,
           bbox := BoundingBox.mk 0 0 50 50, confidence := 9 / 10 }]
        (fun _ _ => 1) = .ok res ∧
      res.length = ([sampleFace,
         { id := 2, type := DetectionType.person,
           bbox := BoundingBox.mk 0 0 50 50, confidence := 9 / 10 }].filter
            (fun d => d.type = DetectionType.face)).length ∧
      res.map (fun r => r.detection_id) =
        ([sampleFace,
         { id := 2, type := DetectionType.person,
           bbox := BoundingBox.mk 0 0 50 50, confidence := 9 / 10 }].filter
            (fun d => d.type = DetectionType.face)).map (fun d => d.id) ∧
      ∀ r ∈ res,
        |(r.probabilities.map Prod.snd).sum - 1| ≤
          (["happy", "sad"] : List String).length * (5 / 100000) ∧
        (r.dominant_emotion, r.confidence) ∈ r.probabilities ∧
        ∀ p ∈ r.probabilities, p.2 ≤ r.confidence) :=
  ⟨⟨by decide, by decide, fun i => Or.inr rfl⟩,
   C5_mock_predict_spec ["happy", "sad"] _ (fun _ _ => 1) (by decide)
     (by decide)
     (fun i => by norm_num [mockWeights, List.range_succ])⟩

/-! ## C9: the periodic stats notification -/

/-- Specification-side description of the stats message emitted at frame
number `c + i + 1` of a run that started at wall-clock time `ts` (frame
`i` counts from 0 inside `fts`). -/
def statsSpecFrom (c : ℕ) (ts : ℚ) (fts : List FrameTiming) (i : ℕ) :
    StatsMsg :=
  let ft := fts.getD i ⟨0, 0, 0⟩
  { fps := pyRound 1 (if ft.wall - ts > 0 then
      ((c + i + 1 : ℕ) : ℚ) / (ft.wall - ts) else 0),
    latency_ms := pyRound 1 ((ft.t1 - ft.t0) * 1000),
    detection_count := c + i + 1 }

theorem runStats_foldl_acc (l : List FrameTiming) :
    ∀ (s : StatsState) (ms : List StatsMsg),
      (l.foldl (fun acc ft =>
        let r := processFrameStats acc.1 ft
        (r.1, acc.2 ++ r.2)) (s, ms)).2 =
      ms ++ (l.foldl (fun acc ft =>
        let r := processFrameStats acc.1 ft
        (r.1, acc.2 ++ r.2)) (s, [])).2 := by
  induction l with
  | nil => intro s ms; simp
  | cons ft t ih =>
      intro s ms
      simp only [List.foldl_cons]
      rw [ih ((processFrameStats s ft).1) (ms ++ (processFrameStats s ft).2),
        ih ((processFrameStats s ft).1) ([] ++ (processFrameStats s ft).2)]
      simp

theorem statsSpecFrom_succ (c : ℕ) (ts : ℚ) (ft : FrameTiming)
    (rest : List FrameTiming) (i : ℕ) :
    statsSpecFrom c ts (ft :: rest) (i + 1) = statsSpecFrom (c + 1) ts rest i := by
  unfold statsSpecFrom
  have h1 : c + (i + 1) + 1 = c + 1 + i + 1 := by omega
  simp [h1]

theorem runStats_spec :
    ∀ (fts : List FrameTiming) (c : ℕ) (ts lm : ℚ),
      (runStats ⟨c, ts, lm⟩ fts).2 =
        ((List.range fts.length).filter (fun i => (c + i + 1) % 30 = 0)).map
          (statsSpecFrom c ts fts) := by
  intro fts
  induction fts with
  | nil => intro c ts lm; simp [runStats]
  | cons ft rest ih =>
      intro c ts lm
      have hstep : runStats ⟨c, ts, lm⟩ (ft :: rest) =
          (rest.foldl (fun acc ft =>
            let r := processFrameStats acc.1 ft
            (r.1, acc.2 ++ r.2))
            (⟨c + 1, ts, (ft.t1 - ft.t0) * 1000⟩,
             [] ++ (if (c + 1) % 30 = 0 then
               [notifyStats ⟨c + 1, ts, (ft.t1 - ft.t0) * 1000⟩ ft.wall]
               else []))) := rfl
      rw [hstep, runStats_foldl_acc]
      have hrest : (rest.foldl (fun acc ft =>
          let r := processFrameStats acc.1 ft
          (r.1, acc.2 ++ r.2))
          (⟨c + 1, ts, (ft.t1 - ft.t0) * 1000⟩, [])).2 =
          ((List.range rest.length).filter
            (fun i => (c + 1 + i + 1) % 30 = 0)).map
              (statsSpecFrom (c + 1) ts rest) :=
        ih (c + 1) ts ((ft.t1 - ft.t0) * 1000)
      rw [hrest]
      have hmsg0 : notifyStats ⟨c + 1, ts, (ft.t1 - ft.t0) * 1000⟩ ft.wall =
          statsSpecFrom c ts (ft :: rest) 0 := by
        unfold notifyStats statsSpecFrom
        simp
      rw [List.length_cons, List.range_succ_eq_map, List.filter_cons,
        List.filter_map]
      have hpe : ∀ i ∈ List.range rest.length,
          ((fun i => decide ((c + i + 1) % 30 = 0)) ∘ Nat.succ) i =
          (fun i => decide ((c + 1 + i + 1) % 30 = 0)) i := by
        intro i _
        simp only [Function.comp]
        have h : c + (i + 1) + 1 = c + 1 + i + 1 := Nat.succ_add_eq_add_succ c i ▸
          (by omega)
        rw [Nat.succ_eq_add_one, h]
      rw [List.filter_congr hpe]
      have hmapsucc : List.map (statsSpecFrom c ts (ft :: rest))
          (List.map Nat.succ ((List.range rest.length).filter
            (fun i => decide ((c + 1 + i + 1) % 30 = 0)))) =
          List.map (statsSpecFrom (c + 1) ts rest)
            ((List.range rest.length).filter
              (fun i => decide ((c + 1 + i + 1) % 30 = 0))) := by
        rw [List.map_map]
        apply List.map_congr_left
        intro i _
        simp only [Function.comp]
        rw [Nat.succ_eq_add_one]
        exact statsSpecFrom_succ c ts ft rest i
      by_cases h30 : (c + 1) % 30 = 0
      · rw [if_pos h30,
          if_pos (show (fun i => decide ((c + i + 1) % 30 = 0)) 0 = true by
            simp [h30])]
        simp only [List.map_cons, List.nil_append]
        rw [hmsg0, hmapsucc]
        rfl
      · rw [if_neg h30,
          if_neg (show ¬ (fun i => decide ((c + i + 1) % 30 = 0)) 0 = true by
            simp [h30])]
        simp only [List.nil_append]
        rw [hmapsucc]

/-- C9: over any run (frame clock readings `fts`, run start `ts`),
exactly the 30th, 60th, … processed frames emit a stats message, whose
`fps` is the cumulative frame count divided by the wall-clock seconds
elapsed since `run()` started (0 when no time has elapsed), rounded to 1
decimal; whose `latency_ms` is the most recent frame's processing time in
milliseconds rounded to 1 decimal; and whose `detection_count` is the
cumulative processed-frame counter itself (not a detection tally). -/
theorem C9_stats_notification (ts lm : ℚ) (fts : List FrameTiming) :
    (runStats ⟨0, ts, lm⟩ fts).2 =
      ((List.range fts.length).filter (fun i => (i + 1) % 30 = 0)).map
        (statsSpecFrom 0 ts fts) := by
  rw [runStats_spec fts 0 ts lm]
  congr 1
  apply List.filter_congr
  intro i hi
  norm_num

/-! ## C7: `SESeg1D` preserves shape and its attention sums to 1 -/

theorem chunksAux_exact {α : Type} (L : ℕ) (hL : 0 < L) :
    ∀ (k : ℕ) (fuel : ℕ) (xs : List α), k ≤ fuel → xs.length = k * L →
      (chunksAux L fuel xs).length = k ∧
      (∀ s ∈ chunksAux L fuel xs, s.length = L) ∧
      (chunksAux L fuel xs).flatten = xs := by
  intro k
  induction k with
  | zero =>
      intro fuel xs _ hlen
      have hnil : xs = [] := List.length_eq_zero.mp (by omega)
      subst hnil
      cases fuel with
      | zero => exact ⟨rfl, by intro s hs; exact absurd hs (List.not_mem_nil s), rfl⟩
      | succ f => exact ⟨rfl, by intro s hs; exact absurd hs (List.not_mem_nil s), rfl⟩
  | succ k ih =>
      intro fuel xs hfuel hlen
      have hpos : 0 < xs.length := by
        rw [hlen]; exact Nat.mul_pos (Nat.succ_pos k) hL
      obtain ⟨x, xs', rfl⟩ : ∃ x xs', xs = x :: xs' := by
        cases xs with
        | nil => simp at hpos
        | cons x xs' => exact ⟨x, xs', rfl⟩
      obtain ⟨f, rfl⟩ : ∃ f, fuel = f + 1 := by
        cases fuel with
        | zero => omega
        | succ f => exact ⟨f, rfl⟩
      have hstep : chunksAux L (f + 1) (x :: xs') =
          ((x :: xs').take L) :: chunksAux L f ((x :: xs').drop L) := rfl
      have hdroplen : ((x :: xs').drop L).length = k * L := by
        rw [List.length_drop, hlen]
        have : (k + 1) * L = k * L + L := by ring
        omega
      have htakelen : ((x :: xs').take L).length = L := by
        rw [List.length_take]
        have : L ≤ (x :: xs').length := by
          rw [hlen]
          calc L = 1 * L := (one_mul L).symm
            _ ≤ (k + 1) * L := Nat.mul_le_mul_right L (by omega)
        omega
      obtain ⟨ihl, ihall, ihflat⟩ := ih f ((x :: xs').drop L) (by omega) hdroplen
      refine ⟨?_, ?_, ?_⟩
      · rw [hstep, List.length_cons, ihl]
      · intro s hs
        rw [hstep] at hs
        rcases List.mem_cons.mp hs with h | h
        · rw [h]; exact htakelen
        · exact ihall s h
      · rw [hstep, List.flatten_cons, ihflat, List.take_append_drop]

theorem chunks_exact {α : Type} (L k : ℕ) (hL : 0 < L) (xs : List α)
    (h : xs.length = k * L) :
    (chunks L xs).length = k ∧
    (∀ s ∈ chunks L xs, s.length = L) ∧
    (chunks L xs).flatten = xs := by
  unfold chunks
  have hkle : k ≤ xs.length := by
    rw [h]
    calc k = k * 1 := (mul_one k).symm
      _ ≤ k * L := Nat.mul_le_mul_left k hL
  exact chunksAux_exact L hL k xs.length xs hkle h

theorem softmaxRow_length (v : List ℝ) : (softmaxRow v).length = v.length := by
  simp [softmaxRow]

theorem softmaxRow_sum (v : List ℝ) (h : v ≠ []) : (softmaxRow v).sum = 1 := by
  have hpos : 0 < (v.map Real.exp).sum := by
    apply List.sum_pos
    · intro x hx
      obtain ⟨y, _, rfl⟩ := List.mem_map.mp hx
      exact Real.exp_pos y
    · simpa using h
  show (List.map (fun x => x / (List.map Real.exp v).sum)
    (List.map Real.exp v)).sum = 1
  rw [sum_map_div]
  exact div_self (ne_of_gt hpos)

theorem linearR_length (W : List (List ℝ)) (b : List ℝ) (v : List ℝ) :
    (linearR W b v).length = min W.length b.length := by
  simp [linearR]

theorem sum_const_of_all (l : List ℕ) (c : ℕ) (h : ∀ x ∈ l, x = c) :
    l.sum = l.length * c := by
  induction l with
  | nil => simp
  | cons a t ih =>
      rw [List.sum_cons, List.length_cons,
        ih (fun x hx => h x (List.mem_cons_of_mem a hx)),
        h a (List.mem_cons_self a t)]
      ring

/-- C7: for every `SESeg1D` block whose second linear layer has
`channels = k > 0` output rows/biases, and every input of length
`k * L` (features divisible by `L`), the forward pass preserves the
input's length (in particular a `(batch, 128)` input maps to a
`(batch, 128)` output for `features=128, L=64, k=2`), and the internally
derived channel-attention weights sum to 1. -/
theorem C7_seseg1d_shape (m : SESeg1D) (X : List (List ℝ)) (k : ℕ)
    (hL : 0 < m.L) (hk : 0 < k)
    (hW : m.fc2W.length = k) (hb : m.fc2b.length = k) :
    (m.forwardBatch X).length = X.length ∧
    ∀ x ∈ X, x.length = k * m.L →
      (m.forward x).length = x.length ∧ (m.attention x).sum = 1 := by
  constructor
  · simp [SESeg1D.forwardBatch]
  · intro x _ hx
    obtain ⟨hsl, hsall, _⟩ := chunks_exact m.L k hL x hx
    have hattnlen : (m.attention x).length = k := by
      unfold SESeg1D.attention
      rw [softmaxRow_length, linearR_length, hW, hb, min_self]
    constructor
    · unfold SESeg1D.forward
      rw [List.length_flatten, List.map_map]
      have hall : ∀ n ∈ ((chunks m.L x).zip (m.attention x)).map
          (List.length ∘ fun sa => sa.1.map (fun v => v * sa.2)), n = m.L := by
        intro n hn
        obtain ⟨sa, hsa, rfl⟩ := List.mem_map.mp hn
        simp only [Function.comp, List.length_map]
        exact hsall sa.1 (List.of_mem_zip hsa).1
      rw [sum_const_of_all _ m.L hall]
      rw [List.length_map, List.length_zip, hsl, hattnlen, min_self, hx]
    · unfold SESeg1D.attention
      apply softmaxRow_sum
      intro hnil
      have : (linearR m.fc2W m.fc2b
          (reluR (linearR m.fc1W m.fc1b ((chunks m.L x).map meanR)))).length = 0 := by
        rw [hnil]; rfl
      rw [linearR_length, hW, hb, min_self] at this
      omega

/-- Witness for C7: a 128-feature, `L = 64` block (`channels = 2`) with
zero weights applied to the all-zero 128-vector. -/
theorem C7_seseg1d_shape_witness :
    ((0:ℕ) < 64 ∧ (0:ℕ) < 2 ∧
     ([([] : List ℝ), []].length = 2) ∧ (([0, 0] : List ℝ).length = 2) ∧
     (List.replicate 128 (0:ℝ)).length = 2 * 64) ∧
    ((SESeg1D.mk 128 64 [] [] [[], []] [0, 0]).forward
      (List.replicate 128 (0:ℝ))).length =
        (List.replicate 128 (0:ℝ)).length ∧
    ((SESeg1D.mk 128 64 [] [] [[], []] [0, 0]).attention
      (List.replicate 128 (0:ℝ))).sum = 1 :=
  ⟨⟨by norm_num, by norm_num, rfl, rfl, by simp⟩,
   ((C7_seseg1d_shape (SESeg1D.mk 128 64 [] [] [[], []] [0, 0])
      [List.replicate 128 (0:ℝ)] 2 (by norm_num) (by norm_num) rfl rfl).2
      (List.replicate 128 (0:ℝ)) (List.mem_singleton.mpr rfl) (by simp)).1,
   ((C7_seseg1d_shape (SESeg1D.mk 128 64 [] [] [[], []] [0, 0])
      [List.replicate 128 (0:ℝ)] 2 (by norm_num) (by norm_num) rfl rfl).2
      (List.replicate 128 (0:ℝ)) (List.mem_singleton.mpr rfl) (by simp)).2⟩

/-! ## C4: result counts of the three model-backed recognizers for an
unmatched face -/

/-- C4: for a frame with exactly one face detection and persons none of
which the matcher pairs with it, the Emotic recognizer's `predict`
returns zero results (the unmatched face is skipped), while the CAER and
DDEN recognizers each return exactly one result for the same input. -/
theorem C4_unmatched_face_counts {Frame T : Type}
    (prepCtx : Frame → ℕ × ℕ → T)
    (prepBody prepFace : Frame → BoundingBox → ℕ × ℕ → T)
    (net3 : T → T → T → List ℝ) (net2 : T → T → List ℝ) (net1 : T → List ℝ)
    (frame : Frame) (d : Detection) (persons : List Detection)
    (hd : d.type = DetectionType.face)
    (hps : ∀ p ∈ persons, p.type = DetectionType.person)
    (hmatch : match_faces_to_persons [d] persons (1 / 10) = []) :
    emoticPredict prepCtx prepBody prepFace net3 frame (d :: persons) = [] ∧
    (caerPredict prepCtx prepFace net2 frame (d :: persons)).length = 1 ∧
    (ddenPredict prepFace net1 frame (d :: persons)).length = 1 := by
  have hfilterF : (d :: persons).filter
      (fun x => x.type = DetectionType.face) = [d] := by
    rw [List.filter_cons_of_pos (by simp [hd])]
    congr 1
    rw [List.filter_eq_nil_iff]
    intro p hp
    simp [hps p hp]
  have hfilterP : (d :: persons).filter
      (fun x => x.type = DetectionType.person) = persons := by
    rw [List.filter_cons_of_neg (by simp [hd])]
    rw [List.filter_eq_self]
    intro p hp
    simp [hps p hp]
  refine ⟨?_, ?_, ?_⟩
  · unfold emoticPredict filter_by_type
    rw [hfilterF, hfilterP]
    rw [if_neg (by simp)]
    rw [hmatch]
    simp [dictGet]
  · unfold caerPredict
    rw [hfilterF]
    rw [if_neg (by simp)]
    simp [batchTensors]
  · unfold ddenPredict
    rw [hfilterF]
    rw [if_neg (by simp)]
    simp [batchTensors]

/-- A concrete person detection far away from `sampleFace`, used by
witnesses. -/
def farPerson : Detection :=
  { id := 2, type := DetectionType.person,
    bbox := BoundingBox.mk 100 100 10 10, confidence := 9 / 10 }

/-- Witness for C4: `sampleFace` at `(0,0,10,10)` and one person at
`(100,100,10,10)` (no overlap, center not contained), with trivial
tensor/net instantiations. -/
theorem C4_unmatched_face_counts_witness :
    (sampleFace.type = DetectionType.face ∧
     (∀ p ∈ [farPerson], p.type = DetectionType.person) ∧
     match_faces_to_persons [sampleFace] [farPerson] (1 / 10) = []) ∧
    emoticPredict (fun (_ : Unit) _ => ()) (fun _ _ _ => ()) (fun _ _ _ => ())
      (fun _ _ _ => List.replicate 26 (0 : ℝ)) ()
      (sampleFace :: [farPerson]) = [] ∧
    (caerPredict (fun (_ : Unit) _ => ()) (fun _ _ _ => ())
      (fun _ _ => List.replicate 7 (0 : ℝ)) ()
      (sampleFace :: [farPerson])).length = 1 ∧
    (ddenPredict (fun (_ : Unit) _ _ => ())
      (fun _ => List.replicate 7 (0 : ℝ)) ()
      (sampleFace :: [farPerson])).length = 1 := by
  have h1 : sampleFace.type = DetectionType.face := rfl
  have h2 : ∀ p ∈ [farPerson], p.type = DetectionType.person := by
    intro p hp
    rw [List.mem_singleton.mp hp]
    rfl
  have h3 : match_faces_to_persons [sampleFace] [farPerson] (1 / 10) = [] := by
    unfold match_faces_to_persons
    rw [if_neg (by simp)]
    simp only [List.foldl_cons, List.foldl_nil, matchFoldStep, matchScan,
      matchScanStep]
    norm_num [inPerson, sampleFace, farPerson, BoundingBox.iou,
      BoundingBox.center, BoundingBox.x2, BoundingBox.y2]
  exact ⟨⟨h1, h2, h3⟩,
    C4_unmatched_face_counts _ _ _ _ _ _ _ _ _ h1 h2 h3⟩

/-! ## Helper lemmas for the greedy face/person matcher (C2, C8) -/

theorem matchScanStep_eq (thr : ℚ) (f : Detection) (used : List ℤ)
    (acc : ℚ × Option Detection) (p : Detection) :
    matchScanStep thr f used acc p = acc ∨
    (matchScanStep thr f used acc p = (f.bbox.iou p.bbox, some p) ∧
     p.id ∉ used ∧
     ((inPerson f p ∧ (acc.2 = none ∨ f.bbox.iou p.bbox > acc.1)) ∨
      (¬ inPerson f p ∧ acc.2 = none ∧ f.bbox.iou p.bbox > thr))) := by
  unfold matchScanStep
  dsimp only
  split_ifs with h1 h2 h3
  · left; rfl
  · right; exact ⟨rfl, h1, Or.inl h2⟩
  · right; exact ⟨rfl, h1, Or.inr h3⟩
  · left; rfl

theorem scan_stable (thr : ℚ) (f : Detection) (used : List ℤ) :
    ∀ (ps : List Detection) (acc : ℚ × Option Detection), acc.2 ≠ none →
      (ps.foldl (matchScanStep thr f used) acc).2 ≠ none ∧
      acc.1 ≤ (ps.foldl (matchScanStep thr f used) acc).1 := by
  intro ps
  induction ps with
  | nil => intro acc h; exact ⟨h, le_refl _⟩
  | cons p rest ih =>
      intro acc h
      rw [List.foldl_cons]
      rcases matchScanStep_eq thr f used acc p with heq | ⟨heq, _, hc⟩
      · rw [heq]; exact ih acc h
      · rw [heq]
        have h2 := ih (f.bbox.iou p.bbox, some p) (by simp)
        refine ⟨h2.1, le_trans ?_ h2.2⟩
        rcases hc with ⟨_, hor⟩ | ⟨_, hnone, _⟩
        · rcases hor with hn | hgt
          · exact absurd hn h
          · exact le_of_lt hgt
        · exact absurd hnone h

theorem matchScanStep_nonneg (thr : ℚ) (f : Detection) (used : List ℤ)
    (acc : ℚ × Option Detection) (p : Detection) (h : 0 ≤ acc.1) :
    0 ≤ (matchScanStep thr f used acc p).1 := by
  rcases matchScanStep_eq thr f used acc p with heq | ⟨heq, _, _⟩
  · rw [heq]; exact h
  · rw [heq]; exact (iou_mem_unit f.bbox p.bbox).1

theorem scan_some_sound (thr : ℚ) (f : Detection) (used : List ℤ) :
    ∀ (ps : List Detection) (acc : ℚ × Option Detection),
      (∀ q, acc.2 = some q → q.id ∉ used ∧ acc.1 = f.bbox.iou q.bbox ∧
        (inPerson f q ∨ acc.1 > thr)) →
      ∀ p, (ps.foldl (matchScanStep thr f used) acc).2 = some p →
        p.id ∉ used ∧
        (ps.foldl (matchScanStep thr f used) acc).1 = f.bbox.iou p.bbox ∧
        (inPerson f p ∨ (ps.foldl (matchScanStep thr f used) acc).1 > thr) ∧
        (p ∈ ps ∨ acc.2 = some p) := by
  intro ps
  induction ps with
  | nil =>
      intro acc hinv p hp
      obtain ⟨h1, h2, h3⟩ := hinv p hp
      exact ⟨h1, h2, h3, Or.inr hp⟩
  | cons q rest ih =>
      intro acc hinv p hp
      rw [List.foldl_cons] at hp ⊢
      rcases matchScanStep_eq thr f used acc q with heq | ⟨heq, hnu, hc⟩
      · rw [heq] at hp ⊢
        obtain ⟨h1, h2, h3, h4⟩ := ih acc hinv p hp
        exact ⟨h1, h2, h3, by
          rcases h4 with h4 | h4
          · exact Or.inl (List.mem_cons_of_mem q h4)
          · exact Or.inr h4⟩
      · rw [heq] at hp ⊢
        have hinv' : ∀ r, ((f.bbox.iou q.bbox, some q) :
            ℚ × Option Detection).2 = some r →
            r.id ∉ used ∧
            ((f.bbox.iou q.bbox, some q) : ℚ × Option Detection).1 =
              f.bbox.iou r.bbox ∧
            (inPerson f r ∨ ((f.bbox.iou q.bbox, some q) :
              ℚ × Option Detection).1 > thr) := by
          intro r hr
          have hrq : q = r := by simpa using hr
          subst hrq
          refine ⟨hnu, rfl, ?_⟩
          rcases hc with ⟨hip, _⟩ | ⟨_, _, hgt⟩
          · exact Or.inl hip
          · exact Or.inr hgt
        obtain ⟨h1, h2, h3, h4⟩ := ih _ hinv' p hp
        refine ⟨h1, h2, h3, ?_⟩
        rcases h4 with h4 | h4
        · exact Or.inl (List.mem_cons_of_mem q h4)
        · have hpq : q = p := by simpa using h4
          exact Or.inl (by rw [← hpq]; exact List.mem_cons_self q rest)

theorem matchScanStep_head_le (thr : ℚ) (f : Detection) (used : List ℤ)
    (acc : ℚ × Option Detection) (p : Detection)
    (hnu : p.id ∉ used) (hip : inPerson f p) :
    f.bbox.iou p.bbox ≤ (matchScanStep thr f used acc p).1 ∧
    (matchScanStep thr f used acc p).2 ≠ none := by
  unfold matchScanStep
  dsimp only
  split_ifs with h1 h2
  · exact ⟨le_refl _, by simp⟩
  · exact absurd hip h2.1
  · have hor : ¬ (acc.2 = none ∨ f.bbox.iou p.bbox > acc.1) :=
      fun hor => h1 ⟨hip, hor⟩
    push_neg at hor
    exact ⟨hor.2, hor.1⟩

theorem scan_containing_le (thr : ℚ) (f : Detection) (used : List ℤ) :
    ∀ (ps : List Detection) (acc : ℚ × Option Detection), 0 ≤ acc.1 →
      ∀ q ∈ ps, q.id ∉ used → inPerson f q →
        f.bbox.iou q.bbox ≤ (ps.foldl (matchScanStep thr f used) acc).1 := by
  intro ps
  induction ps with
  | nil => intro acc _ q hq; exact absurd hq (List.not_mem_nil q)
  | cons p rest ih =>
      intro acc hnn q hq hnu hip
      rw [List.foldl_cons]
      rcases List.mem_cons.mp hq with hqp | hqr
      · subst hqp
        obtain ⟨hle, hsome⟩ := matchScanStep_head_le thr f used acc q hnu hip
        calc f.bbox.iou q.bbox ≤ (matchScanStep thr f used acc q).1 := hle
          _ ≤ (rest.foldl (matchScanStep thr f used)
              (matchScanStep thr f used acc q)).1 :=
            (scan_stable thr f used rest _ hsome).2
      · exact ih (matchScanStep thr f used acc p)
          (matchScanStep_nonneg thr f used acc p hnn) q hqr hnu hip

theorem matchScanStep_none (thr : ℚ) (f : Detection) (used : List ℤ)
    (acc : ℚ × Option Detection) (p : Detection)
    (h : (matchScanStep thr f used acc p).2 = none) (hacc : acc.2 = none)
    (hnu : p.id ∉ used) :
    ¬ inPerson f p ∧ f.bbox.iou p.bbox ≤ thr := by
  unfold matchScanStep at h
  dsimp only at h
  split_ifs at h with h1 h2
  have hnip : ¬ inPerson f p := fun hip => h1 ⟨hip, Or.inl hacc⟩
  exact ⟨hnip, not_lt.mp (fun hgt => h2 ⟨hnip, hacc, hgt⟩)⟩

theorem scan_none_sound (thr : ℚ) (f : Detection) (used : List ℤ) :
    ∀ (ps : List Detection) (acc : ℚ × Option Detection),
      (ps.foldl (matchScanStep thr f used) acc).2 = none →
      ∀ q ∈ ps, q.id ∉ used → ¬ inPerson f q ∧ f.bbox.iou q.bbox ≤ thr := by
  intro ps
  induction ps with
  | nil => intro acc _ q hq; exact absurd hq (List.not_mem_nil q)
  | cons p rest ih =>
      intro acc hnone q hq hnu
      rw [List.foldl_cons] at hnone
      have hstep : (matchScanStep thr f used acc p).2 = none := by
        by_contra hcon
        exact (scan_stable thr f used rest _ hcon).1 hnone
      have hacc : acc.2 = none := by
        rcases matchScanStep_eq thr f used acc p with heq | ⟨heq, _, _⟩
        · rw [heq] at hstep; exact hstep
        · rw [heq] at hstep; simp at hstep
      rcases List.mem_cons.mp hq with hqp | hqr
      · subst hqp
        exact matchScanStep_none thr f used acc q hstep hacc hnu
      · exact ih (matchScanStep thr f used acc p) hnone q hqr hnu

theorem matchScanStep_fail (thr : ℚ) (f : Detection) (used : List ℤ)
    (acc : ℚ × Option Detection) (p : Detection) (hacc : acc.2 = none)
    (hfail : p.id ∉ used → ¬ inPerson f p ∧ f.bbox.iou p.bbox ≤ thr) :
    matchScanStep thr f used acc p = acc := by
  unfold matchScanStep
  dsimp only
  split_ifs with h1 h2 h3
  · rfl
  · exact absurd h2.1 (hfail h1).1
  · exact absurd h3.2.2 (not_lt.mpr (hfail h1).2)
  · rfl

theorem scan_none_of_all_fail (thr : ℚ) (f : Detection) (used : List ℤ) :
    ∀ (ps : List Detection) (acc : ℚ × Option Detection), acc.2 = none →
      (∀ q ∈ ps, q.id ∉ used → ¬ inPerson f q ∧ f.bbox.iou q.bbox ≤ thr) →
      ps.foldl (matchScanStep thr f used) acc = acc := by
  intro ps
  induction ps with
  | nil => intro acc _ _; rfl
  | cons p rest ih =>
      intro acc hacc hfail
      rw [List.foldl_cons,
        matchScanStep_fail thr f used acc p hacc
          (hfail p (List.mem_cons_self p rest))]
      exact ih acc hacc (fun q hq => hfail q (List.mem_cons_of_mem p hq))

theorem scan_frozen (thr : ℚ) (f : Detection) (used : List ℤ) :
    ∀ (ps : List Detection) (acc : ℚ × Option Detection), acc.2 ≠ none →
      (∀ q ∈ ps, q.id ∉ used → ¬ inPerson f q) →
      ps.foldl (matchScanStep thr f used) acc = acc := by
  intro ps
  induction ps with
  | nil => intro acc _ _; rfl
  | cons p rest ih =>
      intro acc hacc hnc
      have hstep : matchScanStep thr f used acc p = acc := by
        unfold matchScanStep
        dsimp only
        split_ifs with h1 h2 h3
        · rfl
        · exact absurd h2.1 (hnc p (List.mem_cons_self p rest) h1)
        · exact absurd h3.2.1 hacc
        · rfl
      rw [List.foldl_cons, hstep]
      exact ih acc hacc (fun q hq => hnc q (List.mem_cons_of_mem p hq))

theorem scan_no_containing_find (thr : ℚ) (f : Detection) (used : List ℤ) :
    ∀ (ps : List Detection) (acc : ℚ × Option Detection), acc.2 = none →
      (∀ q ∈ ps, q.id ∉ used → ¬ inPerson f q) →
      (ps.foldl (matchScanStep thr f used) acc).2 =
        ps.find? (fun q => decide (q.id ∉ used) &&
          decide (f.bbox.iou q.bbox > thr)) := by
  intro ps
  induction ps with
  | nil => intro acc hacc _; simpa using hacc
  | cons p rest ih =>
      intro acc hacc hnc
      rw [List.foldl_cons]
      by_cases hu : p.id ∈ used
      · have hstep : matchScanStep thr f used acc p = acc := by
          unfold matchScanStep
          rw [if_pos hu]
        rw [hstep, List.find?_cons_of_neg _ (by simp [hu])]
        exact ih acc hacc (fun q hq => hnc q (List.mem_cons_of_mem p hq))
      · by_cases hgt : f.bbox.iou p.bbox > thr
        · have hstep : matchScanStep thr f used acc p =
              (f.bbox.iou p.bbox, some p) := by
            unfold matchScanStep
            rw [if_neg hu,
              if_neg (fun hc => (hnc p (List.mem_cons_self p rest) hu) hc.1),
              if_pos ⟨hnc p (List.mem_cons_self p rest) hu, hacc, hgt⟩]
          rw [hstep,
            scan_frozen thr f used rest _ (by simp)
              (fun q hq => hnc q (List.mem_cons_of_mem p hq)),
            List.find?_cons_of_pos _ (by simp [hu, hgt])]
        · have hstep : matchScanStep thr f used acc p = acc :=
            matchScanStep_fail thr f used acc p hacc
              (fun _ => ⟨hnc p (List.mem_cons_self p rest) hu, not_lt.mp hgt⟩)
          rw [hstep, List.find?_cons_of_neg _ (by simp [hgt])]
          exact ih acc hacc (fun q hq => hnc q (List.mem_cons_of_mem p hq))

theorem any_key {κ ν : Type} [DecidableEq κ] (m : List (κ × ν)) (k : κ) :
    m.any (fun kv => kv.1 = k) = true ↔ k ∈ m.map Prod.fst := by
  rw [List.any_eq_true]
  constructor
  · rintro ⟨kv, hkv, hp⟩
    simp only [decide_eq_true_eq] at hp
    exact hp ▸ List.mem_map_of_mem Prod.fst hkv
  · intro h
    obtain ⟨kv, hkv, he⟩ := List.mem_map.mp h
    exact ⟨kv, hkv, by simp [he]⟩

theorem keys_update {κ ν : Type} [DecidableEq κ] (m : List (κ × ν)) (k : κ)
    (v : ν) :
    ((m.map (fun kv => if kv.1 = k then (k, v) else kv)).map Prod.fst) =
      m.map Prod.fst := by
  rw [List.map_map]
  apply List.map_congr_left
  intro kv _
  simp only [Function.comp]
  by_cases h : kv.1 = k
  · rw [if_pos h, h]
  · rw [if_neg h]

theorem keys_dictInsert {κ ν : Type} [DecidableEq κ] (m : List (κ × ν))
    (k : κ) (v : ν) (x : κ) (hx : x ∈ (dictInsert m k v).map Prod.fst) :
    x = k ∨ x ∈ m.map Prod.fst := by
  unfold dictInsert at hx
  by_cases h : m.any (fun kv => kv.1 = k) = true
  · rw [if_pos h, keys_update] at hx
    exact Or.inr hx
  · rw [if_neg h, List.map_append] at hx
    rcases List.mem_append.mp hx with h1 | h1
    · exact Or.inr h1
    · left; simpa using h1

theorem keys_dictInsert_nodup {κ ν : Type} [DecidableEq κ]
    (m : List (κ × ν)) (k : κ) (v : ν) (h : (m.map Prod.fst).Nodup) :
    ((dictInsert m k v).map Prod.fst).Nodup := by
  unfold dictInsert
  by_cases hk : m.any (fun kv => kv.1 = k) = true
  · rw [if_pos hk, keys_update]; exact h
  · rw [if_neg hk, List.map_append]
    have hnk : k ∉ m.map Prod.fst := fun hmem => hk ((any_key m k).mpr hmem)
    simp only [List.map_cons, List.map_nil]
    rw [List.nodup_append]
    exact ⟨h, List.nodup_singleton k, by
      intro a ha
      simp only [List.mem_singleton]
      intro he
      exact hnk (he ▸ ha)⟩

theorem vals_updateMap_sub {κ ν : Type} [DecidableEq κ] (m : List (κ × ν))
    (k : κ) (v : ν) (x : ν)
    (hx : x ∈ (m.map (fun kv => if kv.1 = k then (k, v) else kv)).map
      Prod.snd) :
    x = v ∨ x ∈ m.map Prod.snd := by
  rw [List.map_map] at hx
  obtain ⟨kv, hkv, he⟩ := List.mem_map.mp hx
  simp only [Function.comp] at he
  by_cases h : kv.1 = k
  · rw [if_pos h] at he
    exact Or.inl he.symm
  · rw [if_neg h] at he
    exact Or.inr (he ▸ List.mem_map_of_mem Prod.snd hkv)

theorem vals_dictInsert_sub {κ ν : Type} [DecidableEq κ] (m : List (κ × ν))
    (k : κ) (v : ν) (x : ν) (hx : x ∈ (dictInsert m k v).map Prod.snd) :
    x = v ∨ x ∈ m.map Prod.snd := by
  unfold dictInsert at hx
  by_cases h : m.any (fun kv => kv.1 = k) = true
  · rw [if_pos h] at hx
    exact vals_updateMap_sub m k v x hx
  · rw [if_neg h, List.map_append] at hx
    rcases List.mem_append.mp hx with h1 | h1
    · exact Or.inr h1
    · left; simpa using h1

theorem map_update_id {κ ν : Type} [DecidableEq κ] (m : List (κ × ν)) (k : κ)
    (v : ν) (h : k ∉ m.map Prod.fst) :
    m.map (fun kv => if kv.1 = k then (k, v) else kv) = m := by
  have hne : ∀ kv ∈ m, (if kv.1 = k then (k, v) else kv) = kv := by
    intro kv hkv
    have hk : ¬ kv.1 = k := fun he =>
      h (by rw [← he]; exact List.mem_map_of_mem Prod.fst hkv)
    rw [if_neg hk]
  rw [List.map_congr_left hne]
  exact List.map_id m

theorem vals_update_nodup {κ ν : Type} [DecidableEq κ] (k : κ) (v : ν) :
    ∀ (m : List (κ × ν)), (m.map Prod.fst).Nodup → (m.map Prod.snd).Nodup →
      v ∉ m.map Prod.snd →
      ((m.map (fun kv => if kv.1 = k then (k, v) else kv)).map
        Prod.snd).Nodup := by
  intro m
  induction m with
  | nil => intro _ _ _; simp
  | cons a t ih =>
      intro hkeys hvals hv
      simp only [List.map_cons, List.nodup_cons] at hkeys hvals ⊢
      by_cases ha : a.1 = k
      · rw [if_pos ha, map_update_id t k v (ha ▸ hkeys.1)]
        constructor
        · intro hmem
          exact hv (List.mem_cons_of_mem a.2 hmem)
        · exact hvals.2
      · rw [if_neg ha]
        constructor
        · intro hmem
          rcases vals_updateMap_sub t k v a.2 hmem with he | he
          · exact hv (he ▸ List.mem_cons_self a.2 (t.map Prod.snd))
          · exact hvals.1 he
        · exact ih hkeys.2 hvals.2 (fun hmem => hv (List.mem_cons_of_mem _ hmem))

theorem vals_dictInsert_nodup {κ ν : Type} [DecidableEq κ]
    (m : List (κ × ν)) (k : κ) (v : ν) (hkeys : (m.map Prod.fst).Nodup)
    (hvals : (m.map Prod.snd).Nodup) (hv : v ∉ m.map Prod.snd) :
    ((dictInsert m k v).map Prod.snd).Nodup := by
  unfold dictInsert
  by_cases h : m.any (fun kv => kv.1 = k) = true
  · rw [if_pos h]
    exact vals_update_nodup k v m hkeys hvals hv
  · rw [if_neg h, List.map_append]
    simp only [List.map_cons, List.map_nil]
    rw [List.nodup_append]
    exact ⟨hvals, List.nodup_singleton v, by
      intro a ha
      simp only [List.mem_singleton]
      intro he
      exact hv (he ▸ ha)⟩

theorem dictGet_eq_none {κ ν : Type} [DecidableEq κ] (m : List (κ × ν))
    (k : κ) : dictGet m k = none ↔ k ∉ m.map Prod.fst := by
  unfold dictGet
  rw [Option.map_eq_none', List.find?_eq_none]
  constructor
  · intro h hmem
    obtain ⟨kv, hkv, he⟩ := List.mem_map.mp hmem
    exact h kv hkv (by simp [he])
  · intro h kv hkv
    simp only [decide_eq_true_eq]
    intro he
    exact h (he ▸ List.mem_map_of_mem Prod.fst hkv)

theorem matchFoldStep_of_none (thr : ℚ) (ps : List Detection)
    (st : List (ℤ × ℤ) × List ℤ) (f : Detection)
    (h : (matchScan thr f ps st.2).2 = none) :
    matchFoldStep thr ps st f = st := by
  unfold matchFoldStep
  rw [h]

theorem matchFoldStep_of_some (thr : ℚ) (ps : List Detection)
    (st : List (ℤ × ℤ) × List ℤ) (f : Detection) (best : Detection)
    (h : (matchScan thr f ps st.2).2 = some best) :
    matchFoldStep thr ps st f =
      (dictInsert st.1 f.id best.id, best.id :: st.2) := by
  unfold matchFoldStep
  rw [h]

theorem scan_trivial_inv (thr : ℚ) (f : Detection) (used : List ℤ) :
    ∀ q, ((0 : ℚ), (none : Option Detection)).2 = some q →
      q.id ∉ used ∧ ((0 : ℚ), (none : Option Detection)).1 =
        f.bbox.iou q.bbox ∧
      (inPerson f q ∨ ((0 : ℚ), (none : Option Detection)).1 > thr) := by
  intro q hq
  simp at hq

theorem match_fold_inv (thr : ℚ) (ps : List Detection) :
    ∀ (faces : List Detection) (st : List (ℤ × ℤ) × List ℤ),
      (st.1.map Prod.fst).Nodup → (st.1.map Prod.snd).Nodup →
      (∀ v ∈ st.1.map Prod.snd, v ∈ st.2) →
      ((faces.foldl (matchFoldStep thr ps) st).1.map Prod.fst).Nodup ∧
      ((faces.foldl (matchFoldStep thr ps) st).1.map Prod.snd).Nodup ∧
      (∀ v ∈ (faces.foldl (matchFoldStep thr ps) st).1.map Prod.snd,
        v ∈ (faces.foldl (matchFoldStep thr ps) st).2) := by
  intro faces
  induction faces with
  | nil => intro st h1 h2 h3; exact ⟨h1, h2, h3⟩
  | cons f rest ih =>
      intro st h1 h2 h3
      rw [List.foldl_cons]
      cases hscan : (matchScan thr f ps st.2).2 with
      | none =>
          rw [matchFoldStep_of_none thr ps st f hscan]
          exact ih st h1 h2 h3
      | some best =>
          rw [matchFoldStep_of_some thr ps st f best hscan]
          obtain ⟨hnu, _, _, _⟩ := scan_some_sound thr f st.2 ps (0, none)
            (scan_trivial_inv thr f st.2) best hscan
          apply ih
          · exact keys_dictInsert_nodup _ _ _ h1
          · exact vals_dictInsert_nodup _ _ _ h1 h2
              (fun hmem => hnu (h3 _ hmem))
          · intro v hv
            rcases vals_dictInsert_sub _ _ _ v hv with he | hmem
            · rw [he]; exact List.mem_cons_self _ _
            · exact List.mem_cons_of_mem _ (h3 v hmem)

theorem keys_foldl_sub (thr : ℚ) (ps : List Detection) :
    ∀ (faces : List Detection) (st : List (ℤ × ℤ) × List ℤ) (x : ℤ),
      x ∈ ((faces.foldl (matchFoldStep thr ps) st).1.map Prod.fst) →
      x ∈ st.1.map Prod.fst ∨ x ∈ faces.map Detection.id := by
  intro faces
  induction faces with
  | nil => intro st x hx; exact Or.inl hx
  | cons f rest ih =>
      intro st x hx
      rw [List.foldl_cons] at hx
      rcases ih (matchFoldStep thr ps st f) x hx with h | h
      · cases hscan : (matchScan thr f ps st.2).2 with
        | none =>
            rw [matchFoldStep_of_none thr ps st f hscan] at h
            exact Or.inl h
        | some best =>
            rw [matchFoldStep_of_some thr ps st f best hscan] at h
            rcases keys_dictInsert st.1 f.id best.id x h with he | hmem
            · right; rw [he]; simp
            · exact Or.inl hmem
      · right
        simp only [List.map_cons]
        exact List.mem_cons_of_mem _ h

theorem match_no_entry_aux (thr : ℚ) (ps : List Detection) (f : Detection)
    (hfail : ∀ p ∈ ps, ¬ inPerson f p ∧ f.bbox.iou p.bbox ≤ thr) :
    ∀ (faces : List Detection) (st : List (ℤ × ℤ) × List ℤ),
      (faces.map Detection.id).Nodup → f ∈ faces →
      f.id ∉ st.1.map Prod.fst →
      f.id ∉ ((faces.foldl (matchFoldStep thr ps) st).1.map Prod.fst) := by
  intro faces
  induction faces with
  | nil => intro st _ hf _; exact absurd hf (List.not_mem_nil f)
  | cons g rest ih =>
      intro st hnd hf hkey
      simp only [List.map_cons, List.nodup_cons] at hnd
      rw [List.foldl_cons]
      rcases List.mem_cons.mp hf with hfg | hfr
      · subst hfg
        have hscan : (matchScan thr f ps st.2).2 = none := by
          unfold matchScan
          rw [scan_none_of_all_fail thr f st.2 ps (0, none) rfl
            (fun q hq _ => hfail q hq)]
        rw [matchFoldStep_of_none thr ps st f hscan]
        intro hmem
        rcases keys_foldl_sub thr ps rest st f.id hmem with h | h
        · exact hkey h
        · exact hnd.1 h
      · have hne : g.id ≠ f.id := by
          intro he
          exact hnd.1 (he ▸ List.mem_map_of_mem Detection.id hfr)
        have hkey' : f.id ∉ ((matchFoldStep thr ps st g).1.map Prod.fst) := by
          cases hscan : (matchScan thr g ps st.2).2 with
          | none =>
              rw [matchFoldStep_of_none thr ps st g hscan]
              exact hkey
          | some best =>
              rw [matchFoldStep_of_some thr ps st g best hscan]
              intro hmem
              rcases keys_dictInsert st.1 g.id best.id f.id hmem with he | h
              · exact hne he.symm
              · exact hkey h
        exact ih (matchFoldStep thr ps st g) hnd.2 hfr hkey'

/-! ## C2: the greedy matcher -/

/-- The face used by the C2 counterexample: box `(0,0,10,10)`,
center `(5,5)`. -/
def cxFace : Detection :=
  { id := 1, type := DetectionType.face, bbox := BoundingBox.mk 0 0 10 10,
    confidence := 9 / 10 }

/-- A person at `(6,0,10,10)`: it does **not** contain the face's center
`(5,5)`, IoU with the face `= 40/160 = 1/4`. -/
def cxPersonA : Detection :=
  { id := 10, type := DetectionType.person, bbox := BoundingBox.mk 6 0 10 10,
    confidence := 9 / 10 }

/-- A person at `(0,0,30,30)`: it **does** contain the face's center,
IoU with the face `= 100/900 = 1/9 < 1/4`. -/
def cxPersonB : Detection :=
  { id := 11, type := DetectionType.person, bbox := BoundingBox.mk 0 0 30 30,
    confidence := 9 / 10 }

/-- C2 is corrected by this counterexample: scanning `[A, B]` for the
face, the non-containing person `A` (IoU `1/4 > 0.1`) is selected first
as the fallback candidate, and the later person `B`, although it
contains the face's center (and clears the threshold itself), cannot
displace `A` because its IoU `1/9` does not exceed `1/4` — so the face
is matched to the *non-containing* person even though a containing
candidate exists, contradicting the claimed preference. -/
theorem C2_counterexample :
    inPerson cxFace cxPersonB ∧ ¬ inPerson cxFace cxPersonA ∧
    cxFace.bbox.iou cxPersonA.bbox > 1 / 10 ∧
    cxFace.bbox.iou cxPersonB.bbox > 1 / 10 ∧
    match_faces_to_persons [cxFace] [cxPersonA, cxPersonB] (1 / 10) =
      [(1, 10)] := by
  have hiouA : cxFace.bbox.iou cxPersonA.bbox = 1 / 4 := by
    norm_num [BoundingBox.iou, cxFace, cxPersonA, BoundingBox.x2,
      BoundingBox.y2, BoundingBox.area]
  have hiouB : cxFace.bbox.iou cxPersonB.bbox = 1 / 9 := by
    norm_num [BoundingBox.iou, cxFace, cxPersonB, BoundingBox.x2,
      BoundingBox.y2, BoundingBox.area]
  have hinB : inPerson cxFace cxPersonB := by
    norm_num [inPerson, cxFace, cxPersonB, BoundingBox.center,
      BoundingBox.x2, BoundingBox.y2]
  have hinA : ¬ inPerson cxFace cxPersonA := by
    norm_num [inPerson, cxFace, cxPersonA, BoundingBox.center,
      BoundingBox.x2, BoundingBox.y2]
  refine ⟨hinB, hinA, by rw [hiouA]; norm_num, by rw [hiouB]; norm_num, ?_⟩
  have hscan : matchScan (1 / 10) cxFace [cxPersonA, cxPersonB] [] =
      (1 / 4, some cxPersonA) := by
    unfold matchScan
    simp only [List.foldl_cons, List.foldl_nil]
    have hstep1 : matchScanStep (1 / 10) cxFace [] (0, none) cxPersonA =
        (1 / 4, some cxPersonA) := by
      unfold matchScanStep
      dsimp only
      rw [if_neg (by simp [cxPersonA]),
        if_neg (fun hc => hinA hc.1),
        if_pos ⟨hinA, rfl, by rw [hiouA]; norm_num⟩, hiouA]
    have hstep2 : matchScanStep (1 / 10) cxFace []
        (1 / 4, some cxPersonA) cxPersonB = (1 / 4, some cxPersonA) := by
      unfold matchScanStep
      dsimp only
      rw [if_neg (by simp [cxPersonB]),
        if_neg (fun hc => by
          rcases hc.2 with h | h
          · simp at h
          · rw [hiouB] at h; norm_num at h),
        if_neg (fun hc => hc.1 hinB)]
    rw [hstep1, hstep2]
  unfold match_faces_to_persons
  rw [if_neg (by simp)]
  simp only [List.foldl_cons, List.foldl_nil]
  rw [matchFoldStep_of_some (1 / 10) [cxPersonA, cxPersonB] ([], []) cxFace
    cxPersonA (by rw [hscan])]
  simp [dictInsert, cxFace, cxPersonA]

/-- C2 (amended): `match_faces_to_persons` is one greedy pass over the
faces, each face scanning unused persons with a `(best_iou, best)`
accumulator: a person containing the face's center replaces the
candidate only when none is set or its IoU strictly exceeds the current
best IoU, and a non-containing person becomes the candidate only when
none is set yet and its IoU exceeds `iou_threshold` — so an
earlier-scanned non-containing candidate of higher IoU beats a later
containing person (see the counterexample).  The chosen person is always
unused, with IoU at least every unused containing person's IoU, and a
non-containing choice always clears the threshold; the scan selects
nobody iff every unused person neither contains the center nor clears
the threshold; when no unused person contains the center the choice is
exactly the *first* unused person above the threshold; each person is
consumed at most once, so the mapping's values are pairwise distinct
(injective); and a face for which every person fails both criteria gets
no mapping entry. -/
theorem C2_match_faces_spec :
    (∀ (faces persons : List Detection) (thr : ℚ),
      ((match_faces_to_persons faces persons thr).map Prod.snd).Nodup) ∧
    (∀ (thr : ℚ) (f : Detection) (ps : List Detection) (used : List ℤ)
      (bi : ℚ) (p : Detection), matchScan thr f ps used = (bi, some p) →
      p ∈ ps ∧ p.id ∉ used ∧ bi = f.bbox.iou p.bbox ∧
      (inPerson f p ∨ bi > thr) ∧
      (∀ q ∈ ps, q.id ∉ used → inPerson f q → f.bbox.iou q.bbox ≤ bi)) ∧
    (∀ (thr : ℚ) (f : Detection) (ps : List Detection) (used : List ℤ),
      ((matchScan thr f ps used).2 = none ↔
        ∀ q ∈ ps, q.id ∉ used → ¬ inPerson f q ∧ f.bbox.iou q.bbox ≤ thr)) ∧
    (∀ (thr : ℚ) (f : Detection) (ps : List Detection) (used : List ℤ),
      (∀ q ∈ ps, q.id ∉ used → ¬ inPerson f q) →
      (matchScan thr f ps used).2 =
        ps.find? (fun q => decide (q.id ∉ used) &&
          decide (f.bbox.iou q.bbox > thr))) ∧
    (∀ (faces ps : List Detection) (thr : ℚ) (f : Detection),
      (faces.map Detection.id).Nodup → f ∈ faces →
      (∀ p ∈ ps, ¬ inPerson f p ∧ f.bbox.iou p.bbox ≤ thr) →
      dictGet (match_faces_to_persons faces ps thr) f.id = none) := by
  refine ⟨?_, ?_, ?_, ?_, ?_⟩
  · intro faces persons thr
    unfold match_faces_to_persons
    split_ifs with h
    · simp
    · exact (match_fold_inv thr persons faces ([], []) (by simp) (by simp)
        (by simp)).2.1
  · intro thr f ps used bi p hscan
    have h2 : (ps.foldl (matchScanStep thr f used) (0, none)).2 = some p := by
      unfold matchScan at hscan
      rw [hscan]
    have h1 : (ps.foldl (matchScanStep thr f used) (0, none)).1 = bi := by
      unfold matchScan at hscan
      rw [hscan]
    obtain ⟨hnu, hbi, hor, hmem⟩ := scan_some_sound thr f used ps (0, none)
      (scan_trivial_inv thr f used) p h2
    have hmem' : p ∈ ps := by
      rcases hmem with h | h
      · exact h
      · simp at h
    refine ⟨hmem', hnu, by rw [← h1, hbi], ?_, ?_⟩
    · rcases hor with h | h
      · exact Or.inl h
      · exact Or.inr (h1 ▸ h)
    · intro q hq hqnu hqip
      have := scan_containing_le thr f used ps (0, none) (le_refl 0) q hq
        hqnu hqip
      rw [h1] at this
      exact this
  · intro thr f ps used
    constructor
    · intro hnone
      exact scan_none_sound thr f used ps (0, none) hnone
    · intro hfail
      unfold matchScan
      rw [scan_none_of_all_fail thr f used ps (0, none) rfl hfail]
  · intro thr f ps used hnc
    unfold matchScan
    exact scan_no_containing_find thr f used ps (0, none) rfl hnc
  · intro faces ps thr f hnd hf hfail
    unfold match_faces_to_persons
    split_ifs with h
    · rfl
    · exact (dictGet_eq_none _ _).mpr
        (match_no_entry_aux thr ps f hfail faces ([], []) hnd hf (by simp))

/-- Witness for C2: the hypothesis-bearing conjuncts applied to the
face at `(0,0,10,10)` and the far person at `(100,100,10,10)`. -/
theorem C2_match_faces_spec_witness :
    ((∀ q ∈ [farPerson], q.id ∉ ([] : List ℤ) → ¬ inPerson sampleFace q) ∧
     (matchScan (1 / 10) sampleFace [farPerson] []).2 =
       [farPerson].find? (fun q => decide (q.id ∉ ([] : List ℤ)) &&
         decide (sampleFace.bbox.iou q.bbox > 1 / 10))) ∧
    (([sampleFace].map Detection.id).Nodup ∧
     (∀ p ∈ [farPerson], ¬ inPerson sampleFace p ∧
       sampleFace.bbox.iou p.bbox ≤ 1 / 10) ∧
     dictGet (match_faces_to_persons [sampleFace] [farPerson] (1 / 10))
       sampleFace.id = none) := by
  have hnc : ∀ q ∈ [farPerson], q.id ∉ ([] : List ℤ) →
      ¬ inPerson sampleFace q := by
    intro q hq _
    rw [List.mem_singleton.mp hq]
    norm_num [inPerson, sampleFace, farPerson, BoundingBox.center,
      BoundingBox.x2, BoundingBox.y2]
  have hfail : ∀ p ∈ [farPerson], ¬ inPerson sampleFace p ∧
      sampleFace.bbox.iou p.bbox ≤ 1 / 10 := by
    intro p hp
    rw [List.mem_singleton.mp hp]
    constructor
    · norm_num [inPerson, sampleFace, farPerson, BoundingBox.center,
        BoundingBox.x2, BoundingBox.y2]
    · norm_num [BoundingBox.iou, sampleFace, farPerson, BoundingBox.x2,
        BoundingBox.y2, BoundingBox.area]
  exact ⟨⟨hnc, C2_match_faces_spec.2.2.2.1 (1 / 10) sampleFace [farPerson]
      [] hnc⟩,
    ⟨by simp, hfail, C2_match_faces_spec.2.2.2.2 [sampleFace] [farPerson]
      (1 / 10) sampleFace (by simp) (List.mem_singleton.mpr rfl) hfail⟩⟩

/-! ## Helper lemmas for C8: `_pair_detections` refines
`match_faces_to_persons` + `apply_pairing` -/

theorem dictGet_dictInsert_self {κ ν : Type} [DecidableEq κ] (k : κ) (v : ν) :
    ∀ (m : List (κ × ν)), dictGet (dictInsert m k v) k = some v := by
  intro m
  induction m with
  | nil =>
      unfold dictInsert
      simp [dictGet]
  | cons a t ih =>
      by_cases ha : a.1 = k
      · have hany : (a :: t).any (fun kv => kv.1 = k) = true := by
          simp [List.any_cons, ha]
        unfold dictInsert
        rw [if_pos hany]
        simp only [List.map_cons, if_pos ha]
        unfold dictGet
        rw [List.find?_cons_of_pos _ (by simp)]
        rfl
      · by_cases ht : t.any (fun kv => kv.1 = k) = true
        · have hany : (a :: t).any (fun kv => kv.1 = k) = true := by
            simp [List.any_cons, ht]
          unfold dictInsert
          rw [if_pos hany]
          simp only [List.map_cons, if_neg ha]
          unfold dictGet
          rw [List.find?_cons_of_neg _ (by simp [ha])]
          have := ih
          unfold dictInsert at this
          rw [if_pos ht] at this
          exact this
        · have hany : ¬ ((a :: t).any (fun kv => kv.1 = k) = true) := by
            simp only [List.any_cons, Bool.or_eq_true]
            rintro (h | h)
            · exact ha (by simpa using h)
            · exact ht h
          unfold dictInsert
          rw [if_neg hany]
          unfold dictGet
          rw [List.cons_append, List.find?_cons_of_neg _ (by simp [ha])]
          have := ih
          unfold dictInsert at this
          rw [if_neg ht] at this
          exact this

theorem find?_update_other {κ ν : Type} [DecidableEq κ] (k k' : κ) (v : ν)
    (hne : k' ≠ k) :
    ∀ (m : List (κ × ν)),
      (m.map (fun kv => if kv.1 = k then (k, v) else kv)).find?
        (fun kv => kv.1 = k') = m.find? (fun kv => kv.1 = k') := by
  intro m
  induction m with
  | nil => rfl
  | cons a t ih =>
      simp only [List.map_cons]
      by_cases ha : a.1 = k
      · rw [if_pos ha]
        rw [List.find?_cons_of_neg _ (by simp [Ne.symm hne]),
          List.find?_cons_of_neg _ (by simp [ha, Ne.symm hne])]
        exact ih
      · rw [if_neg ha]
        by_cases ha' : a.1 = k'
        · rw [List.find?_cons_of_pos _ (by simp [ha']),
            List.find?_cons_of_pos _ (by simp [ha'])]
        · rw [List.find?_cons_of_neg _ (by simp [ha']),
            List.find?_cons_of_neg _ (by simp [ha'])]
          exact ih

theorem dictGet_dictInsert_other {κ ν : Type} [DecidableEq κ] (k k' : κ)
    (v : ν) (hne : k' ≠ k) :
    ∀ (m : List (κ × ν)), dictGet (dictInsert m k v) k' = dictGet m k' := by
  intro m
  unfold dictInsert
  by_cases h : m.any (fun kv => kv.1 = k) = true
  · rw [if_pos h]
    unfold dictGet
    rw [find?_update_other k k' v hne m]
  · rw [if_neg h]
    unfold dictGet
    rw [List.find?_append]
    have hone : ([(k, v)].find? (fun kv => kv.1 = k')) = none := by
      rw [List.find?_cons_of_neg _ (by simp [Ne.symm hne])]
      rfl
    rw [hone]
    cases hf : m.find? (fun kv => kv.1 = k') <;> rfl

/-- `pairScanStep` case analysis (analogous to `matchScanStep_eq`). -/
theorem pairScanStep_eq (f : Detection) (used : List ℤ)
    (acc : ℚ × Option (ℕ × Detection)) (ip : ℕ × Detection) :
    pairScanStep f used acc ip = acc ∨
    (pairScanStep f used acc ip = (f.bbox.iou ip.2.bbox, some ip) ∧
     ip.2.id ∉ used) := by
  unfold pairScanStep
  dsimp only
  split_ifs with h1 h2 h3
  · left; rfl
  · right; exact ⟨rfl, h1⟩
  · right; exact ⟨rfl, h1⟩
  · left; rfl

theorem pairScan_provenance (f : Detection) (used : List ℤ) :
    ∀ (E : List (ℕ × Detection)) (acc : ℚ × Option (ℕ × Detection))
      (jp : ℕ × Detection),
      (E.foldl (pairScanStep f used) acc).2 = some jp →
      jp ∈ E ∨ acc.2 = some jp := by
  intro E
  induction E with
  | nil => intro acc jp h; exact Or.inr h
  | cons ip rest ih =>
      intro acc jp h
      rw [List.foldl_cons] at h
      rcases ih (pairScanStep f used acc ip) jp h with hmem | hacc
      · exact Or.inl (List.mem_cons_of_mem ip hmem)
      · rcases pairScanStep_eq f used acc ip with heq | ⟨heq, _⟩
        · rw [heq] at hacc; exact Or.inr hacc
        · rw [heq] at hacc
          have : jp = ip := by simpa using hacc.symm
          exact Or.inl (this ▸ List.mem_cons_self ip rest)

theorem mem_enumFrom_get {α : Type} :
    ∀ (S : List α) (k : ℕ) (jp : ℕ × α), jp ∈ S.enumFrom k →
      k ≤ jp.1 ∧ S.get? (jp.1 - k) = some jp.2 := by
  intro S
  induction S with
  | nil => intro k jp h; simp [List.enumFrom] at h
  | cons a t ih =>
      intro k jp h
      rw [show (a :: t).enumFrom k = (k, a) :: t.enumFrom (k + 1) from rfl]
        at h
      rcases List.mem_cons.mp h with he | hmem
      · subst he
        exact ⟨le_refl k, by simp⟩
      · obtain ⟨hle, hget⟩ := ih (k + 1) jp hmem
        refine ⟨by omega, ?_⟩
        have : jp.1 - k = (jp.1 - (k + 1)) + 1 := by omega
        rw [this]
        simpa using hget

theorem mem_enum_get {α : Type} (S : List α) (jp : ℕ × α)
    (h : jp ∈ S.enum) : S.get? jp.1 = some jp.2 := by
  obtain ⟨_, hget⟩ := mem_enumFrom_get S 0 jp h
  simpa using hget

/-- The per-detection core data read by both scan loops: id and box
(the `paired_id` writes do not affect it). -/
def detCore (d : Detection) : ℤ × BoundingBox := (d.id, d.bbox)

theorem inPerson_congr (f p q : Detection) (h : p.bbox = q.bbox) :
    inPerson f p ↔ inPerson f q := by
  unfold inPerson
  rw [h]

/-- Relation between the two scan accumulators: equal best-IoU, and the
candidates are simultaneously absent or carry the same person id. -/
def scanRel (a : ℚ × Option (ℕ × Detection)) (b : ℚ × Option Detection) :
    Prop :=
  a.1 = b.1 ∧
  ((a.2 = none ∧ b.2 = none) ∨
   (∃ jp q, a.2 = some jp ∧ b.2 = some q ∧ q.id = jp.2.id))

theorem scan_rel (f : Detection) (used : List ℤ) :
    ∀ (E : List (ℕ × Detection)) (Qs : List Detection),
      E.map (fun ip => detCore ip.2) = Qs.map detCore →
      ∀ (a : ℚ × Option (ℕ × Detection)) (b : ℚ × Option Detection),
        scanRel a b →
        scanRel (E.foldl (pairScanStep f used) a)
          (Qs.foldl (matchScanStep (1 / 10) f used) b) := by
  intro E
  induction E with
  | nil =>
      intro Qs hcore a b hab
      cases Qs with
      | nil => exact hab
      | cons q Q' => simp at hcore
  | cons ip E' ih =>
      intro Qs hcore a b hab
      cases Qs with
      | nil => simp at hcore
      | cons q Q' =>
          simp only [List.map_cons, List.cons.injEq] at hcore
          have hid : ip.2.id = q.id := congrArg Prod.fst hcore.1
          have hbx : ip.2.bbox = q.bbox := congrArg Prod.snd hcore.1
          rw [List.foldl_cons, List.foldl_cons]
          apply ih Q' hcore.2
          unfold pairScanStep matchScanStep
          dsimp only
          by_cases hu : ip.2.id ∈ used
          · rw [if_pos hu, if_pos (hid ▸ hu)]
            exact hab
          · rw [if_neg hu, if_neg (fun hq => hu (hid ▸ hq))]
            have hiou : f.bbox.iou ip.2.bbox = f.bbox.iou q.bbox := by
              rw [hbx]
            have hip : inPerson f ip.2 ↔ inPerson f q :=
              inPerson_congr f ip.2 q hbx
            have hnone : a.2 = none ↔ b.2 = none := by
              rcases hab.2 with ⟨h1, h2⟩ | ⟨jp, qq, h1, h2, _⟩
              · simp [h1, h2]
              · simp [h1, h2]
            by_cases hc1 : inPerson f ip.2 ∧ (a.2 = none ∨
                f.bbox.iou ip.2.bbox > a.1)
            · rw [if_pos hc1,
                if_pos (show inPerson f q ∧ (b.2 = none ∨
                  f.bbox.iou q.bbox > b.1) by
                  refine ⟨hip.mp hc1.1, ?_⟩
                  rcases hc1.2 with h | h
                  · exact Or.inl (hnone.mp h)
                  · exact Or.inr (by rw [← hiou, ← hab.1]; exact h))]
              exact ⟨hiou, Or.inr ⟨ip, q, rfl, rfl, hid.symm⟩⟩
            · rw [if_neg hc1,
                if_neg (show ¬ (inPerson f q ∧ (b.2 = none ∨
                  f.bbox.iou q.bbox > b.1)) by
                  intro hc
                  apply hc1
                  refine ⟨hip.mpr hc.1, ?_⟩
                  rcases hc.2 with h | h
                  · exact Or.inl (hnone.mpr h)
                  · exact Or.inr (by rw [hiou, hab.1]; exact h))]
              by_cases hc2 : ¬ inPerson f ip.2 ∧ a.2 = none ∧
                  f.bbox.iou ip.2.bbox > 1 / 10
              · rw [if_pos hc2,
                  if_pos (show ¬ inPerson f q ∧ b.2 = none ∧
                    f.bbox.iou q.bbox > 1 / 10 from
                    ⟨fun hq => hc2.1 (hip.mpr hq), hnone.mp hc2.2.1,
                     hiou ▸ hc2.2.2⟩)]
                exact ⟨hiou, Or.inr ⟨ip, q, rfl, rfl, hid.symm⟩⟩
              · rw [if_neg hc2,
                  if_neg (show ¬ (¬ inPerson f q ∧ b.2 = none ∧
                    f.bbox.iou q.bbox > 1 / 10) by
                    intro hc
                    exact hc2 ⟨fun hq => hc.1 (hip.mp hq),
                      hnone.mpr hc.2.1, hiou ▸ hc.2.2⟩)]
                exact hab

theorem updateAt_map_core (f : Detection → Detection)
    (hf : ∀ d, detCore (f d) = detCore d) :
    ∀ (P : List Detection) (j : ℕ),
      (updateAt f P j).map detCore = P.map detCore := by
  intro P
  induction P with
  | nil => intro j; rfl
  | cons a t ih =>
      intro j
      cases j with
      | zero => simp [updateAt, hf a]
      | succ j => simp [updateAt, ih j]

theorem any_id (t : List Detection) (x : ℤ) :
    t.any (fun q => q.id = x) = true ↔ x ∈ t.map Detection.id := by
  rw [List.any_eq_true]
  constructor
  · rintro ⟨q, hq, he⟩
    simp only [decide_eq_true_eq] at he
    exact he ▸ List.mem_map_of_mem Detection.id hq
  · intro h
    obtain ⟨q, hq, he⟩ := List.mem_map.mp h
    exact ⟨q, hq, by simp [he]⟩

theorem setPairedAtLast_eq_updateAt (fid : ℤ) :
    ∀ (P : List Detection) (j : ℕ) (p : Detection),
      (P.map Detection.id).Nodup → P.get? j = some p →
      setPairedAtLast P p.id fid =
        updateAt (fun q => { q with paired_id := some fid }) P j := by
  intro P
  induction P with
  | nil => intro j p _ hget; simp at hget
  | cons a t ih =>
      intro j p hnd hget
      simp only [List.map_cons, List.nodup_cons] at hnd
      cases j with
      | zero =>
          have hap : a = p := by simpa using hget
          subst hap
          unfold setPairedAtLast
          rw [if_neg (fun hany => hnd.1 ((any_id t a.id).mp hany)),
            if_pos rfl]
          rfl
      | succ j =>
          have hget' : t.get? j = some p := by simpa using hget
          have hpt : p ∈ t := List.get?_mem hget'
          unfold setPairedAtLast
          rw [if_pos ((any_id t p.id).mpr (List.mem_map_of_mem Detection.id hpt))]
          rw [ih j p hnd.2 hget']
          rfl

theorem applyStep_of_none (M : List (ℤ × ℤ))
    (st : List Detection × List Detection) (f : Detection)
    (h : dictGet M f.id = none) :
    applyStep M st f = (st.1 ++ [f], st.2) := by
  unfold applyStep
  rw [h]

theorem applyStep_of_some (M : List (ℤ × ℤ))
    (st : List Detection × List Detection) (f : Detection) (pid : ℤ)
    (h : dictGet M f.id = some pid) :
    applyStep M st f = (st.1 ++ [{ f with paired_id := some pid }],
      setPairedAtLast st.2 pid f.id) := by
  unfold applyStep
  rw [h]

theorem applyFold_acc (M : List (ℤ × ℤ)) :
    ∀ (faces : List Detection) (acc P : List Detection),
      faces.foldl (applyStep M) (acc, P) =
        (acc ++ (faces.foldl (applyStep M) ([], P)).1,
         (faces.foldl (applyStep M) ([], P)).2) := by
  intro faces
  induction faces with
  | nil => intro acc P; simp
  | cons f rest ih =>
      intro acc P
      rw [List.foldl_cons, List.foldl_cons]
      cases hg : dictGet M f.id with
      | none =>
          rw [applyStep_of_none M (acc, P) f hg, applyStep_of_none M ([], P) f hg]
          dsimp only
          rw [ih (acc ++ [f]) P, ih ([] ++ [f]) P]
          simp
      | some pid =>
          rw [applyStep_of_some M (acc, P) f pid hg,
            applyStep_of_some M ([], P) f pid hg]
          dsimp only
          have h1 := ih (acc ++ [{ f with paired_id := some pid }])
            (setPairedAtLast P pid f.id)
          have h2 := ih ([] ++ [{ f with paired_id := some pid }])
            (setPairedAtLast P pid f.id)
          rw [h1, h2]
          simp

theorem applyFold_nil_mapping :
    ∀ (faces : List Detection) (acc P : List Detection),
      faces.foldl (applyStep []) (acc, P) = (acc ++ faces, P) := by
  intro faces
  induction faces with
  | nil => intro acc P; simp
  | cons f rest ih =>
      intro acc P
      rw [List.foldl_cons, applyStep_of_none [] (acc, P) f rfl, ih]
      simp

theorem mfLoop_get_stable (Q : List Detection) (x : ℤ) :
    ∀ (rest : List Detection) (st : List (ℤ × ℤ) × List ℤ),
      x ∉ rest.map Detection.id →
      dictGet (rest.foldl (matchFoldStep (1 / 10) Q) st).1 x =
        dictGet st.1 x := by
  intro rest
  induction rest with
  | nil => intro st _; rfl
  | cons g r ih =>
      intro st hx
      simp only [List.map_cons, List.mem_cons, not_or] at hx
      rw [List.foldl_cons]
      cases hscan : (matchScan (1 / 10) g Q st.2).2 with
      | none =>
          rw [matchFoldStep_of_none (1 / 10) Q st g hscan]
          exact ih st hx.2
      | some best =>
          rw [matchFoldStep_of_some (1 / 10) Q st g best hscan]
          rw [ih _ hx.2]
          exact dictGet_dictInsert_other g.id x best.id hx.1 st.1

theorem pairFoldStep_of_none (st : List Detection × List Detection × List ℤ)
    (f : Detection) (h : (pairScan f st.2.1 st.2.2).2 = none) :
    pairFoldStep st f = (st.1 ++ [f], st.2.1, st.2.2) := by
  unfold pairFoldStep
  rw [h]

theorem pairFoldStep_of_some (st : List Detection × List Detection × List ℤ)
    (f : Detection) (j : ℕ) (best : Detection)
    (h : (pairScan f st.2.1 st.2.2).2 = some (j, best)) :
    pairFoldStep st f =
      (st.1 ++ [{ f with paired_id := some best.id }],
       updateAt (fun q => { q with paired_id := some f.id }) st.2.1 j,
       best.id :: st.2.2) := by
  unfold pairFoldStep
  rw [h]

theorem pair_loop_eq :
    ∀ (faces : List Detection) (P Q : List Detection) (used : List ℤ)
      (m : List (ℤ × ℤ)) (done : List Detection),
      P.map detCore = Q.map detCore →
      (Q.map Detection.id).Nodup →
      (faces.map Detection.id).Nodup →
      (∀ g ∈ faces, g.id ∉ m.map Prod.fst) →
      faces.foldl pairFoldStep (done, P, used) =
        (done ++ (faces.foldl (applyStep
          ((faces.foldl (matchFoldStep (1 / 10) Q) (m, used)).1)) ([], P)).1,
         (faces.foldl (applyStep
          ((faces.foldl (matchFoldStep (1 / 10) Q) (m, used)).1)) ([], P)).2,
         (faces.foldl (matchFoldStep (1 / 10) Q) (m, used)).2) := by
  intro faces
  induction faces with
  | nil =>
      intro P Q used m done _ _ _ _
      simp
  | cons f rest ih =>
      intro P Q used m done hcore hQn hFn hkeys
      simp only [List.map_cons, List.nodup_cons] at hFn
      have hPids : P.map Detection.id = Q.map Detection.id := by
        have h := congrArg (List.map Prod.fst) hcore
        rw [List.map_map, List.map_map] at h
        exact h
      have hPn : (P.map Detection.id).Nodup := hPids ▸ hQn
      have hE : P.enum.map (fun ip => detCore ip.2) = Q.map detCore := by
        have h1 : P.enum.map (fun ip => detCore ip.2) =
            (P.enum.map Prod.snd).map detCore := by
          rw [List.map_map]
          rfl
        rw [h1, List.enum_map_snd, hcore]
      have hrel := scan_rel f used P.enum Q hE (0, none) (0, none)
        ⟨rfl, Or.inl ⟨rfl, rfl⟩⟩
      simp only [List.foldl_cons]
      rcases hrel.2 with ⟨hpn, hmn⟩ | ⟨jp, q, hps, hms, hqid⟩
      · have hpn' : (pairScan f P used).2 = none := hpn
        have hmn' : (matchScan (1 / 10) f Q used).2 = none := hmn
        rw [pairFoldStep_of_none (done, P, used) f hpn',
          matchFoldStep_of_none (1 / 10) Q (m, used) f hmn']
        dsimp only
        have hMf : dictGet
            ((rest.foldl (matchFoldStep (1 / 10) Q) (m, used)).1) f.id =
              none := by
          rw [mfLoop_get_stable Q f.id rest (m, used) hFn.1]
          exact (dictGet_eq_none m f.id).mpr
            (hkeys f (List.mem_cons_self f rest))
        rw [applyStep_of_none _ ([], P) f hMf]
        dsimp only
        rw [ih P Q used m (done ++ [f]) hcore hQn hFn.2
          (fun g hg => hkeys g (List.mem_cons_of_mem f hg))]
        rw [applyFold_acc _ rest ([] ++ [f]) P]
        simp [List.append_assoc]
      · have hps' : (pairScan f P used).2 = some (jp.1, jp.2) := hps
        have hms' : (matchScan (1 / 10) f Q used).2 = some q := hms
        have hjp : jp ∈ P.enum := by
          rcases pairScan_provenance f used P.enum (0, none) jp hps with h | h
          · exact h
          · simp at h
        have hget : P.get? jp.1 = some jp.2 := mem_enum_get P jp hjp
        rw [pairFoldStep_of_some (done, P, used) f jp.1 jp.2 hps',
          matchFoldStep_of_some (1 / 10) Q (m, used) f q hms']
        dsimp only
        rw [hqid]
        have hMf : dictGet ((rest.foldl (matchFoldStep (1 / 10) Q)
            (dictInsert m f.id jp.2.id, jp.2.id :: used)).1) f.id =
              some jp.2.id := by
          rw [mfLoop_get_stable Q f.id rest _ hFn.1]
          exact dictGet_dictInsert_self f.id jp.2.id m
        rw [applyStep_of_some _ ([], P) f jp.2.id hMf]
        have hset : setPairedAtLast P jp.2.id f.id =
            updateAt (fun r => { r with paired_id := some f.id }) P jp.1 :=
          setPairedAtLast_eq_updateAt f.id P jp.1 jp.2 hPn hget
        rw [hset]
        have hcore' : (updateAt (fun r => { r with paired_id := some f.id })
            P jp.1).map detCore = Q.map detCore := by
          rw [updateAt_map_core (fun r => { r with paired_id := some f.id })
            (fun d => rfl) P jp.1, hcore]
        have hkeys' : ∀ g ∈ rest,
            g.id ∉ (dictInsert m f.id jp.2.id).map Prod.fst := by
          intro g hg hmem
          rcases keys_dictInsert m f.id jp.2.id g.id hmem with he | hm
          · exact hFn.1 (he ▸ List.mem_map_of_mem Detection.id hg)
          · exact hkeys g (List.mem_cons_of_mem f hg) hm
        have hI := ih (updateAt (fun r => { r with paired_id := some f.id })
            P jp.1) Q (jp.2.id :: used) (dictInsert m f.id jp.2.id)
          (done ++ [{ f with paired_id := some jp.2.id }]) hcore' hQn hFn.2
          hkeys'
        rw [hI]
        have hA := applyFold_acc ((rest.foldl (matchFoldStep (1 / 10) Q)
            (dictInsert m f.id jp.2.id, jp.2.id :: used)).1) rest
          ([] ++ [{ f with paired_id := some jp.2.id }])
          (updateAt (fun r => { r with paired_id := some f.id }) P jp.1)
        rw [hA]
        simp [List.append_assoc]

/-- The core equivalence behind C8: under duplicate-free ids,
`_pair_detections` produces exactly the `(faces, persons)` that
`apply_pairing` produces from `match_faces_to_persons` with threshold
`0.1`. -/
theorem pair_detections_eq_match_apply (faces persons : List Detection)
    (hf : (faces.map Detection.id).Nodup)
    (hp : (persons.map Detection.id).Nodup) :
    pair_detections faces persons =
      apply_pairing faces persons
        (match_faces_to_persons faces persons (1 / 10)) := by
  unfold pair_detections match_faces_to_persons apply_pairing
  split_ifs with h
  · rw [applyFold_nil_mapping faces [] persons]
    simp
  · have hloop := pair_loop_eq faces persons persons [] [] [] rfl hp hf
      (by simp)
    rw [hloop]
    simp

theorem nodup_append_singleton {α : Type} (l1 l2 : List α) (a : α)
    (h : (l1 ++ l2).Nodup) (ha : a ∉ l1 ++ l2) :
    (l1 ++ (l2 ++ [a])).Nodup := by
  rw [← List.append_assoc]
  exact (List.perm_append_comm).nodup_iff.mpr
    (List.nodup_cons.mpr ⟨ha, h⟩)

theorem nodup_mid_singleton {α : Type} (l1 l2 : List α) (a : α)
    (h : (l1 ++ l2).Nodup) (ha : a ∉ l1 ++ l2) :
    ((l1 ++ [a]) ++ l2).Nodup := by
  have hp : (l1 ++ [a]) ++ l2 = l1 ++ a :: l2 := by simp
  rw [hp]
  exact (List.perm_middle).nodup_iff.mpr (List.nodup_cons.mpr ⟨ha, h⟩)

theorem collectStep_person (config : DetectorConfig)
    (st : List Detection × List Detection × ℤ) (b : RawBox)
    (hb : b.cls_id = PERSON_CLASS_ID) (hp : config.detect_person = true) :
    collectStep config st b =
      (st.1, st.2.1 ++ [collectedPerson st.2.2 b], st.2.2 + 1) := by
  simp [collectStep, hb, hp]

theorem collectStep_person_skip (config : DetectorConfig)
    (st : List Detection × List Detection × ℤ) (b : RawBox)
    (hb : b.cls_id = PERSON_CLASS_ID) (hp : config.detect_person = false) :
    collectStep config st b = st := by
  simp [collectStep, hb, hp]

theorem collectStep_face (config : DetectorConfig)
    (st : List Detection × List Detection × ℤ) (b : RawBox)
    (hb : ¬b.cls_id = PERSON_CLASS_ID) (hf : config.detect_face = true) :
    collectStep config st b =
      (st.1 ++ [collectedFace st.2.2 b], st.2.1, st.2.2 + 1) := by
  simp [collectStep, hb, hf]

theorem collectStep_face_skip (config : DetectorConfig)
    (st : List Detection × List Detection × ℤ) (b : RawBox)
    (hb : ¬b.cls_id = PERSON_CLASS_ID) (hf : config.detect_face = false) :
    collectStep config st b = st := by
  simp [collectStep, hb, hf]

/-- Invariant of the collection loop: every collected id is at most the
counter, and the face and person ids are jointly duplicate-free. -/
theorem collect_inv (config : DetectorConfig) :
    ∀ (boxes : List RawBox) (F P : List Detection) (c : ℤ),
      (∀ d ∈ F ++ P, d.id ≤ c) →
      ((F ++ P).map Detection.id).Nodup →
      (∀ d ∈ (boxes.foldl (collectStep config) (F, P, c)).1 ++
          (boxes.foldl (collectStep config) (F, P, c)).2.1,
        d.id ≤ (boxes.foldl (collectStep config) (F, P, c)).2.2) ∧
      (((boxes.foldl (collectStep config) (F, P, c)).1 ++
          (boxes.foldl (collectStep config) (F, P, c)).2.1).map
        Detection.id).Nodup := by
  intro boxes
  induction boxes with
  | nil =>
      intro F P c h1 h2
      exact ⟨h1, h2⟩
  | cons b t ih =>
      intro F P c h1 h2
      simp only [List.foldl_cons]
      have hfresh : (c + 1 : ℤ) ∉ (F ++ P).map Detection.id := by
        intro hmem
        rcases List.mem_map.mp hmem with ⟨d, hd, hid⟩
        have := h1 d hd
        omega
      by_cases hb : b.cls_id = PERSON_CLASS_ID
      · by_cases hp : config.detect_person
        · rw [collectStep_person config (F, P, c) b hb hp]
          dsimp only
          apply ih
          · intro d hd
            simp only [List.mem_append, List.mem_singleton] at hd
            rcases hd with hd | hd | hd
            · have := h1 d (List.mem_append_left P hd); omega
            · have := h1 d (List.mem_append_right F hd); omega
            · subst hd; simp [collectedPerson]
          · have := nodup_append_singleton (F.map Detection.id)
              (P.map Detection.id) (c + 1)
              (by simpa [List.map_append] using h2)
              (by simpa [List.map_append] using hfresh)
            simpa [List.map_append, collectedPerson] using this
        · rw [collectStep_person_skip config (F, P, c) b hb
            (Bool.eq_false_iff.mpr hp)]
          exact ih F P c h1 h2
      · by_cases hf : config.detect_face
        · rw [collectStep_face config (F, P, c) b hb hf]
          dsimp only
          apply ih
          · intro d hd
            simp only [List.mem_append, List.mem_singleton] at hd
            rcases hd with (hd | hd) | hd
            · have := h1 d (List.mem_append_left P hd); omega
            · subst hd; simp [collectedFace]
            · have := h1 d (List.mem_append_right F hd); omega
          · have := nodup_mid_singleton (F.map Detection.id)
              (P.map Detection.id) (c + 1)
              (by simpa [List.map_append] using h2)
              (by simpa [List.map_append] using hfresh)
            simpa [List.map_append, collectedFace] using this
        · rw [collectStep_face_skip config (F, P, c) b hb
            (Bool.eq_false_iff.mpr hf)]
          exact ih F P c h1 h2

theorem collect_faces_nodup (config : DetectorConfig) (boxes : List RawBox)
    (c0 : ℤ) :
    ((collectDetections config boxes c0).1.map Detection.id).Nodup := by
  have h := (collect_inv config boxes [] [] c0 (by simp) (by simp)).2
  rw [List.map_append] at h
  exact h.of_append_left

theorem collect_persons_nodup (config : DetectorConfig)
    (boxes : List RawBox) (c0 : ℤ) :
    ((collectDetections config boxes c0).2.1.map Detection.id).Nodup := by
  have h := (collect_inv config boxes [] [] c0 (by simp) (by simp)).2
  rw [List.map_append] at h
  exact h.of_append_right

/-- C8: the pretrained detector's internal `_pair_detections` step
assigns exactly the positions and values that
`match_faces_to_persons` with `iou_threshold = 0.1` followed by
`apply_pairing` assigns on the same face and person lists (assuming
duplicate-free detection ids, as produced by the detector's `_next_id`
counter), and `detect` returns the paired faces followed by the paired
persons: it equals the concatenation of the two components of
`apply_pairing` applied to the collected lists and the matching's
result. -/
theorem C8_pairing_refinement (faces persons : List Detection)
    (config : DetectorConfig) (boxes : List RawBox) (c0 : ℤ)
    (hf : (faces.map Detection.id).Nodup)
    (hp : (persons.map Detection.id).Nodup) :
    pair_detections faces persons =
      apply_pairing faces persons
        (match_faces_to_persons faces persons (1 / 10)) ∧
    yoloDetect config boxes c0 =
      (apply_pairing (collectDetections config boxes c0).1
          (collectDetections config boxes c0).2.1
          (match_faces_to_persons (collectDetections config boxes c0).1
            (collectDetections config boxes c0).2.1 (1 / 10))).1 ++
      (apply_pairing (collectDetections config boxes c0).1
          (collectDetections config boxes c0).2.1
          (match_faces_to_persons (collectDetections config boxes c0).1
            (collectDetections config boxes c0).2.1 (1 / 10))).2 := by
  refine ⟨pair_detections_eq_match_apply faces persons hf hp, ?_⟩
  show (pair_detections (collectDetections config boxes c0).1
      (collectDetections config boxes c0).2.1).1 ++
    (pair_detections (collectDetections config boxes c0).1
      (collectDetections config boxes c0).2.1).2 = _
  rw [pair_detections_eq_match_apply _ _
    (collect_faces_nodup config boxes c0)
    (collect_persons_nodup config boxes c0)]

def w8Face : Detection :=
  { id := 1, type := .face, bbox := BoundingBox.from_xyxy 0 0 10 10,
    confidence := 9 / 10 }

def w8Person : Detection :=
  { id := 2, type := .person, bbox := BoundingBox.from_xyxy 0 0 20 20,
    confidence := 8 / 10 }

theorem C8_pairing_refinement_witness :
    ([w8Face].map Detection.id).Nodup ∧
    ([w8Person].map Detection.id).Nodup ∧
    (pair_detections [w8Face] [w8Person] =
      apply_pairing [w8Face] [w8Person]
        (match_faces_to_persons [w8Face] [w8Person] (1 / 10)) ∧
    yoloDetect {} [] 0 =
      (apply_pairing (collectDetections {} [] 0).1
          (collectDetections {} [] 0).2.1
          (match_faces_to_persons (collectDetections {} [] 0).1
            (collectDetections {} [] 0).2.1 (1 / 10))).1 ++
      (apply_pairing (collectDetections {} [] 0).1
          (collectDetections {} [] 0).2.1
          (match_faces_to_persons (collectDetections {} [] 0).1
            (collectDetections {} [] 0).2.1 (1 / 10))).2) :=
  ⟨by simp, by simp,
   C8_pairing_refinement [w8Face] [w8Person] {} [] 0
     (by simp) (by simp)⟩

end EmoVision
